import Mathlib

/-!
# MAP v1.1 — formal model of the Python reference implementation

Shallow embedding of `src/implementations/python/map1` (modules `_constants.py`,
`_errors.py`, `_core.py`, `_projection.py`, `_json_adapter.py`, `__init__.py`).

Modelling conventions:
* Python `bytes` values are `List Nat` (each element an octet, 0–255).
* Python `str` values are `List Nat` of Unicode code points.  Python strings can
  hold lone surrogates, which is why the code points are not restricted to
  Lean `Char`s; the code's explicit surrogate checks are therefore live here.
* `MapError` carries only its `.code` attribute (the `ERR_*` string); messages
  are irrelevant to conformance and are dropped.  Fallible functions return
  `Except ErrCode`.
* Recursion over the nested value type is driven by an explicit fuel counter.
  Every recursive call in `_core.py` passes `depth + 1` and container branches
  fail once `depth + 1 > 32`, so the real call depth never exceeds 34; the
  public entry points use fuel 64, which can therefore never be exhausted.
  The artificial `EXHAUSTED` outcome is unreachable on those entry points.
-/

/-- Error codes of `_errors.py` (the nine `ERR_*` strings), plus the
`EXHAUSTED` artifact of the fuel-based embedding (unreachable at fuel 64). -/
inductive ErrCode where
  | ERR_CANON_HDR
  | ERR_CANON_MCF
  | ERR_SCHEMA
  | ERR_TYPE
  | ERR_UTF8
  | ERR_DUP_KEY
  | ERR_KEY_ORDER
  | ERR_LIMIT_DEPTH
  | ERR_LIMIT_SIZE
  | EXHAUSTED
  deriving DecidableEq, Repr

open ErrCode

/-- `_constants.py`: CANON_HDR = b"MAP1\x00". -/
def CANON_HDR : List Nat := [0x4D, 0x41, 0x50, 0x31, 0x00]

def TAG_STRING : Nat := 0x01
def TAG_BYTES : Nat := 0x02
def TAG_LIST : Nat := 0x03
def TAG_MAP : Nat := 0x04
def TAG_BOOLEAN : Nat := 0x05
def TAG_INTEGER : Nat := 0x06

def INT64_MIN : Int := -(2 ^ 63)
def INT64_MAX : Int := 2 ^ 63 - 1

def MAX_CANON_BYTES : Nat := 1048576
def MAX_DEPTH : Nat := 32
def MAX_MAP_ENTRIES : Nat := 65535
def MAX_LIST_ENTRIES : Nat := 65535

/-- Fuel used by the public entry points; see the module comment. -/
def FUEL : Nat := 64

/-! ## Key comparator (`_core.py`, `_key_cmp`)

The Python loop compares octet by octet over the common length and falls back
to the length comparison; the recursion below performs exactly that scan. -/

/-- `_key_cmp(a, b)`: unsigned-octet memcmp returning -1 / 0 / 1. -/
def _key_cmp : List Nat → List Nat → Int
  | [], [] => 0
  | [], _ :: _ => -1
  | _ :: _, [] => 1
  | a :: as', b :: bs' => if a ≠ b then (if a < b then -1 else 1) else _key_cmp as' bs'

/-! ## UTF-8 (`_core.py`, `validate_utf8_scalar`)

`str.encode("utf-8")` and `bytes.decode("utf-8", errors="strict")` are modelled
over code-point lists.  The strict decoder rejects stray continuation bytes,
overlong forms, surrogates and code points above U+10FFFF, exactly as CPython's
does. -/

/-- UTF-8 encoding of a single code point (total; on a scalar code point this
is exactly CPython's `encode("utf-8")` of that character). -/
def utf8EncCp (c : Nat) : List Nat :=
  if c < 0x80 then [c]
  else if c < 0x800 then [0xC0 + c / 64, 0x80 + c % 64]
  else if c < 0x10000 then [0xE0 + c / 4096, 0x80 + c / 64 % 64, 0x80 + c % 64]
  else [0xF0 + c / 262144, 0x80 + c / 4096 % 64, 0x80 + c / 64 % 64, 0x80 + c % 64]

/-- `s.encode("utf-8")` for a code-point string. -/
def strEncode (s : List Nat) : List Nat := s.flatMap utf8EncCp

/-- Strict UTF-8 decoding of a byte list into code points. -/
def utf8Decode : List Nat → Option (List Nat)
  | [] => some []
  | b :: rest =>
    if b < 0x80 then (utf8Decode rest).map (b :: ·)
    else if b < 0xC2 then none
    else if b < 0xE0 then
      match rest with
      | b1 :: rest' =>
        if 0x80 ≤ b1 ∧ b1 < 0xC0 then
          (utf8Decode rest').map (((b - 0xC0) * 64 + (b1 - 0x80)) :: ·)
        else none
      | _ => none
    else if b < 0xF0 then
      match rest with
      | b1 :: b2 :: rest' =>
        if 0x80 ≤ b1 ∧ b1 < 0xC0 ∧ 0x80 ≤ b2 ∧ b2 < 0xC0 then
          let c := (b - 0xE0) * 4096 + (b1 - 0x80) * 64 + (b2 - 0x80)
          if c < 0x800 ∨ (0xD800 ≤ c ∧ c ≤ 0xDFFF) then none
          else (utf8Decode rest').map (c :: ·)
        else none
      | _ => none
    else if b < 0xF5 then
      match rest with
      | b1 :: b2 :: b3 :: rest' =>
        if 0x80 ≤ b1 ∧ b1 < 0xC0 ∧ 0x80 ≤ b2 ∧ b2 < 0xC0 ∧ 0x80 ≤ b3 ∧ b3 < 0xC0 then
          let c := (b - 0xF0) * 262144 + (b1 - 0x80) * 4096 + (b2 - 0x80) * 64 + (b3 - 0x80)
          if c < 0x10000 ∨ 0x10FFFF < c then none
          else (utf8Decode rest').map (c :: ·)
        else none
      | _ => none
    else none

/-- Surrogate test used throughout (`0xD800 <= cp <= 0xDFFF`). -/
def isSurrogate (c : Nat) : Bool := 0xD800 ≤ c ∧ c ≤ 0xDFFF

/-- `validate_utf8_scalar(b)`: strict-decode, then reject surrogates. -/
def validate_utf8_scalar (b : List Nat) : Except ErrCode Unit :=
  match utf8Decode b with
  | none => .error ERR_UTF8
  | some cps => if cps.any isSurrogate then .error ERR_UTF8 else .ok ()

/-! ## Canonical value model (§3 of the spec; Python values fed to `_core.py`) -/

/-- A Python value of one of the six canonical kinds: `str`, `bytes`, `bool`,
`int`, `list`, `dict` (entries in insertion order). -/
inductive Value where
  | vstr : List Nat → Value
  | vbytes : List Nat → Value
  | vbool : Bool → Value
  | vint : Int → Value
  | vlist : List Value → Value
  | vmap : List (List Nat × Value) → Value

open Value

/-! ## SHA-256 (`hashlib.sha256`), implemented over byte lists -/

def M32 : Nat := 4294967296

def rotr32 (x n : Nat) : Nat := (x >>> n ||| x <<< (32 - n)) % M32

/-- The 64 round constants of FIPS 180-4, eight per row (decimal). -/
def sha256KRows : List (List Nat) :=
  [[1116352408, 1899447441, 3049323471, 3921009573, 961987163, 1508970993, 2453635748, 2870763221],
   [3624381080, 310598401, 607225278, 1426881987, 1925078388, 2162078206, 2614888103, 3248222580],
   [3835390401, 4022224774, 264347078, 604807628, 770255983, 1249150122, 1555081692, 1996064986],
   [2554220882, 2821834349, 2952996808, 3210313671, 3336571891, 3584528711, 113926993, 338241895],
   [666307205, 773529912, 1294757372, 1396182291, 1695183700, 1986661051, 2177026350, 2456956037],
   [2730485921, 2820302411, 3259730800, 3345764771, 3516065817, 3600352804, 4094571909, 275423344],
   [430227734, 506948616, 659060556, 883997877, 958139571, 1322822218, 1537002063, 1747873779],
   [1955562222, 2024104815, 2227730452, 2361852424, 2428436474, 2756734187, 3204031479, 3329325298]]

def sha256K : List Nat := sha256KRows.flatten

/-- The initial hash state of FIPS 180-4 (decimal). -/
def sha256H0 : List Nat :=
  [1779033703, 3144134277, 1013904242, 2773480762, 1359893119, 2600822924, 528734635, 1541459225]

def u64beBytes (n : Nat) : List Nat :=
  [n / 2 ^ 56 % 256, n / 2 ^ 48 % 256, n / 2 ^ 40 % 256, n / 2 ^ 32 % 256,
   n / 2 ^ 24 % 256, n / 2 ^ 16 % 256, n / 2 ^ 8 % 256, n % 256]

def sha256Pad (msg : List Nat) : List Nat :=
  let k := (119 - msg.length % 64) % 64
  msg ++ 0x80 :: (List.replicate k 0 ++ u64beBytes (8 * msg.length % 2 ^ 64))

def bytesToWords : List Nat → List Nat
  | b0 :: b1 :: b2 :: b3 :: rest => (b0 * 16777216 + b1 * 65536 + b2 * 256 + b3) :: bytesToWords rest
  | _ => []

def ssig0 (x : Nat) : Nat := (rotr32 x 7 ^^^ rotr32 x 18 ^^^ x >>> 3) % M32
def ssig1 (x : Nat) : Nat := (rotr32 x 17 ^^^ rotr32 x 19 ^^^ x >>> 10) % M32
def bsig0 (x : Nat) : Nat := (rotr32 x 2 ^^^ rotr32 x 13 ^^^ rotr32 x 22) % M32
def bsig1 (x : Nat) : Nat := (rotr32 x 6 ^^^ rotr32 x 11 ^^^ rotr32 x 25) % M32

def extendSched : Nat → List Nat → List Nat
  | 0, w => w
  | n + 1, w =>
    let len := w.length
    let nw := (ssig1 (w.getD (len - 2) 0) + w.getD (len - 7) 0 +
               ssig0 (w.getD (len - 15) 0) + w.getD (len - 16) 0) % M32
    extendSched n (w ++ [nw])

def sha256Round : Nat × Nat → List Nat → List Nat
  | (ki, wi), [a, b, c, d, e, f, g, h] =>
    let ch := (e &&& f) ^^^ ((0xFFFFFFFF ^^^ e) &&& g)
    let t1 := (h + bsig1 e + ch + ki + wi) % M32
    let maj := (a &&& b) ^^^ (a &&& c) ^^^ (b &&& c)
    let t2 := (bsig0 a + maj) % M32
    [(t1 + t2) % M32, a, b, c, (d + t1) % M32, e, f, g]
  | _, st => st

def sha256Block (h : List Nat) (block : List Nat) : List Nat :=
  let w := extendSched 48 (bytesToWords block)
  let st := (sha256K.zip w).foldl (fun st kw => sha256Round kw st) h
  (h.zip st).map (fun p => (p.1 + p.2) % M32)

def sha256Blocks : List Nat → List Nat → List Nat
  | h, [] => h
  | h, b :: rest =>
    sha256Blocks (sha256Block h ((b :: rest).take 64)) ((b :: rest).drop 64)
  termination_by _ l => l.length
  decreasing_by simp [List.length_drop]; omega

def wordsToBytes : List Nat → List Nat
  | [] => []
  | w :: rest => w / 16777216 % 256 :: w / 65536 % 256 :: w / 256 % 256 :: w % 256 :: wordsToBytes rest

def sha256 (msg : List Nat) : List Nat := wordsToBytes (sha256Blocks sha256H0 (sha256Pad msg))

def hexDigitChar (n : Nat) : Char := Char.ofNat (if n < 10 then 48 + n else 87 + n)

def bytesToHexChars : List Nat → List Char
  | [] => []
  | b :: rest => hexDigitChar (b / 16 % 16) :: hexDigitChar (b % 16) :: bytesToHexChars rest

/-- `"map1:" + hashlib.sha256(canon).hexdigest()`. -/
def mid_string (canon : List Nat) : String := "map1:" ++ String.mk (bytesToHexChars (sha256 canon))

/-! ## MCF encoder (`_core.py`, `mcf_encode_value`) -/

/-- `_u32be(n)` = `struct.pack(">I", n)` with the out-of-range guard
(the `n < 0` arm of the guard is vacuous over `Nat`). -/
def _u32be (n : Nat) : Except ErrCode (List Nat) :=
  if n > 0xFFFFFFFF then .error ERR_CANON_MCF
  else .ok [n / 2 ^ 24 % 256, n / 2 ^ 16 % 256, n / 2 ^ 8 % 256, n % 256]

/-- `struct.pack(">q", n)`: 8-byte big-endian two's complement. -/
def int64be (n : Int) : List Nat :=
  let m := (n % (2 ^ 64 : Int)).toNat
  [m / 2 ^ 56 % 256, m / 2 ^ 48 % 256, m / 2 ^ 40 % 256, m / 2 ^ 32 % 256,
   m / 2 ^ 24 % 256, m / 2 ^ 16 % 256, m / 2 ^ 8 % 256, m % 256]

/-- The `items` collection loop of the `dict` branch: keys are encoded to
UTF-8 and validated in insertion order (`isinstance(k, str)` is enforced by
the type of `vmap`). -/
def collect_map_items : List (List Nat × Value) → Except ErrCode (List (List Nat × Value))
  | [] => .ok []
  | (k, v) :: rest => do
    let kb := strEncode k
    validate_utf8_scalar kb
    let rest' ← collect_map_items rest
    .ok ((kb, v) :: rest')

/-- The comparison `items.sort(key=lambda kv: kv[0])` sorts by: byte-string
order of the first component. -/
def entryLe (a b : List Nat × Value) : Prop := _key_cmp a.1 b.1 ≤ 0

instance : DecidableRel entryLe := fun _ _ => inferInstanceAs (Decidable (_ ≤ _))

/-- `_ensure_sorted_unique(keys)`: scan adjacent pairs for duplicates and
order violations. -/
def _ensure_sorted_unique : List (List Nat) → Except ErrCode Unit
  | a :: b :: rest =>
    if _key_cmp a b = 0 then .error ERR_DUP_KEY
    else if _key_cmp a b > 0 then .error ERR_KEY_ORDER
    else _ensure_sorted_unique (b :: rest)
  | _ => .ok ()

/-- The element loop of the `list` branch, parametrized by the encoder for a
single value (the elements' depth, already incremented, is passed in). -/
def encodeListAux (enc : Value → Nat → Except ErrCode (List Nat)) :
    List Value → Nat → Except ErrCode (List Nat)
  | [], _ => .ok []
  | v :: rest, depth => do
    let vb ← enc v depth
    let rb ← encodeListAux enc rest depth
    .ok (vb ++ rb)

/-- The entry-emission loop of the `dict` branch: STRING-framed key, then the
value at `depth + 1`. -/
def encodeEntriesAux (enc : Value → Nat → Except ErrCode (List Nat)) :
    List (List Nat × Value) → Nat → Except ErrCode (List Nat)
  | [], _ => .ok []
  | (kb, v) :: rest, depth => do
    let lb ← _u32be kb.length
    let vb ← enc v (depth + 1)
    let rb ← encodeEntriesAux enc rest depth
    .ok (TAG_STRING :: lb ++ kb ++ vb ++ rb)

/-- `mcf_encode_value(val, depth)`.  `items.sort` is rendered as
`List.insertionSort`: Python's stable sort and insertion sort agree on every
observable of this function (the sorted order, which the adjacent-duplicate
scan makes unique whenever bytes are emitted). -/
def mcf_encode_value : Nat → Value → Nat → Except ErrCode (List Nat)
  | 0, _, _ => .error EXHAUSTED
  | fuel + 1, v, depth =>
    match v with
    | vbool b => .ok [TAG_BOOLEAN, if b then 1 else 0]
    | vint n =>
      if n < INT64_MIN ∨ n > INT64_MAX then .error ERR_SCHEMA
      else .ok (TAG_INTEGER :: int64be n)
    | vstr s => do
      let raw := strEncode s
      validate_utf8_scalar raw
      let lb ← _u32be raw.length
      .ok (TAG_STRING :: lb ++ raw)
    | vbytes bs => do
      let lb ← _u32be bs.length
      .ok (TAG_BYTES :: lb ++ bs)
    | vlist l =>
      if depth + 1 > MAX_DEPTH then .error ERR_LIMIT_DEPTH
      else if l.length > MAX_LIST_ENTRIES then .error ERR_LIMIT_SIZE
      else do
        let lb ← _u32be l.length
        let body ← encodeListAux (mcf_encode_value fuel) l (depth + 1)
        .ok (TAG_LIST :: lb ++ body)
    | vmap es =>
      if depth + 1 > MAX_DEPTH then .error ERR_LIMIT_DEPTH
      else if es.length > MAX_MAP_ENTRIES then .error ERR_LIMIT_SIZE
      else do
        let items ← collect_map_items es
        let sorted := List.insertionSort entryLe items
        _ensure_sorted_unique (sorted.map Prod.fst)
        let lb ← _u32be sorted.length
        let body ← encodeEntriesAux (mcf_encode_value fuel) sorted depth
        .ok (TAG_MAP :: lb ++ body)

/-- `canon_bytes_from_value(val)`: header + MCF body, with the 1 MiB check. -/
def canon_bytes_from_value (v : Value) : Except ErrCode (List Nat) := do
  let body ← mcf_encode_value FUEL v 0
  let canon := CANON_HDR ++ body
  if canon.length > MAX_CANON_BYTES then .error ERR_LIMIT_SIZE else .ok canon

/-- `mid_from_value(val)`. -/
def mid_from_value (v : Value) : Except ErrCode String := do
  let c ← canon_bytes_from_value v
  .ok (mid_string c)

/-- `full_project(descriptor)`: identity (`_projection.py`). -/
def full_project (v : Value) : Value := v

/-- `canonical_bytes_full(descriptor)` (`__init__.py`). -/
def canonical_bytes_full (v : Value) : Except ErrCode (List Nat) :=
  canon_bytes_from_value (full_project v)

/-- `mid_full(descriptor)` (`__init__.py`). -/
def mid_full (v : Value) : Except ErrCode String := mid_from_value (full_project v)

/-! ## MCF decoder (`_core.py`, `_mcf_decode_one`)

Offsets into `buf` are rendered in suffix form: the function consumes the
value's bytes from the front of its input and returns the decoded value
together with the remaining bytes (`buf`/`off` pairs become `buf.drop off`).
`buf[off] != TAG_STRING` peeks become head inspections. -/

/-- `_read_u32be(buf, off)` in suffix form. -/
def read_u32be : List Nat → Except ErrCode (Nat × List Nat)
  | b0 :: b1 :: b2 :: b3 :: rest => .ok (b0 * 2 ^ 24 + b1 * 2 ^ 16 + b2 * 2 ^ 8 + b3, rest)
  | _ => .error ERR_CANON_MCF

/-- The `prev_key` comparison of the MAP decode loop. -/
def check_key_order (prev : Option (List Nat)) (kb : List Nat) : Except ErrCode Unit :=
  match prev with
  | none => .ok ()
  | some pk =>
    if _key_cmp pk kb = 0 then .error ERR_DUP_KEY
    else if _key_cmp pk kb > 0 then .error ERR_KEY_ORDER
    else .ok ()

/-- The element loop of the LIST branch, parametrized by the single-value
decoder (elements at `depth + 1`, passed in). -/
def decodeListAux (dec : List Nat → Nat → Except ErrCode (Value × List Nat)) :
    Nat → List Nat → Nat → Except ErrCode (List Value × List Nat)
  | 0, buf, _ => .ok ([], buf)
  | count + 1, buf, depth => do
    let (v, r1) ← dec buf depth
    let (vs, r2) ← decodeListAux dec count r1 depth
    .ok (v :: vs, r2)

/-- The entry loop of the MAP branch, parametrized by the single-value
decoder: `depth` is the MAP's own depth; keys and values are decoded at
`depth + 1`. -/
def decodeMapAux (dec : List Nat → Nat → Except ErrCode (Value × List Nat)) :
    Nat → List Nat → Nat → Option (List Nat) →
    Except ErrCode (List (List Nat × Value) × List Nat)
  | 0, buf, _, _ => .ok ([], buf)
  | count + 1, buf, depth, prev =>
    match buf with
    | [] => .error ERR_CANON_MCF
    | t :: _ =>
      if t ≠ TAG_STRING then .error ERR_SCHEMA
      else do
        let (k, r1) ← dec buf (depth + 1)
        match k with
        | vstr s => do
          let kb := strEncode s
          check_key_order prev kb
          let (v, r2) ← dec r1 (depth + 1)
          let (entries, r3) ← decodeMapAux dec count r2 depth (some kb)
          .ok ((s, v) :: entries, r3)
        | _ => .error ERR_SCHEMA

/-- `_mcf_decode_one(buf, off, depth)`. -/
def _mcf_decode_one : Nat → List Nat → Nat → Except ErrCode (Value × List Nat)
  | 0, _, _ => .error EXHAUSTED
  | fuel + 1, buf, depth =>
    match buf with
    | [] => .error ERR_CANON_MCF
    | tag :: rest =>
      if tag = TAG_STRING then do
        let (n, r1) ← read_u32be rest
        if r1.length < n then .error ERR_CANON_MCF
        else
          match utf8Decode (r1.take n) with
          | none => .error ERR_UTF8
          | some cps =>
            if cps.any isSurrogate then .error ERR_UTF8
            else .ok (vstr cps, r1.drop n)
      else if tag = TAG_BYTES then do
        let (n, r1) ← read_u32be rest
        if r1.length < n then .error ERR_CANON_MCF
        else .ok (vbytes (r1.take n), r1.drop n)
      else if tag = TAG_LIST then
        if depth + 1 > MAX_DEPTH then .error ERR_LIMIT_DEPTH
        else do
          let (count, r1) ← read_u32be rest
          if count > MAX_LIST_ENTRIES then .error ERR_LIMIT_SIZE
          else do
            let (arr, r2) ← decodeListAux (_mcf_decode_one fuel) count r1 (depth + 1)
            .ok (vlist arr, r2)
      else if tag = TAG_MAP then
        if depth + 1 > MAX_DEPTH then .error ERR_LIMIT_DEPTH
        else do
          let (count, r1) ← read_u32be rest
          if count > MAX_MAP_ENTRIES then .error ERR_LIMIT_SIZE
          else do
            let (entries, r2) ← decodeMapAux (_mcf_decode_one fuel) count r1 depth none
            .ok (vmap entries, r2)
      else if tag = TAG_BOOLEAN then
        match rest with
        | [] => .error ERR_CANON_MCF
        | p :: r1 =>
          if p = 0 ∨ p = 1 then .ok (vbool (p == 1), r1) else .error ERR_CANON_MCF
      else if tag = TAG_INTEGER then
        match rest with
        | b0 :: b1 :: b2 :: b3 :: b4 :: b5 :: b6 :: b7 :: r1 =>
          let m : Nat := b0 * 2 ^ 56 + b1 * 2 ^ 48 + b2 * 2 ^ 40 + b3 * 2 ^ 32 +
                   b4 * 2 ^ 24 + b5 * 2 ^ 16 + b6 * 2 ^ 8 + b7
          .ok (vint (if 2 ^ 63 ≤ m then (m : Int) - 2 ^ 64 else (m : Int)), r1)
        | _ => .error ERR_CANON_MCF
      else .error ERR_CANON_MCF

/-- `mid_from_canon_bytes(canon)`: validate, then hash the caller's bytes. -/
def mid_from_canon_bytes (canon : List Nat) : Except ErrCode String :=
  if canon.length > MAX_CANON_BYTES then .error ERR_LIMIT_SIZE
  else if canon.take 5 ≠ CANON_HDR then .error ERR_CANON_HDR
  else do
    let (_, leftover) ← _mcf_decode_one FUEL (canon.drop 5) 0
    if leftover ≠ [] then .error ERR_CANON_MCF
    else .ok (mid_string canon)

/-! ## Projection (`_projection.py`)

Pointer strings are code-point lists; the characters that matter are
`/` = 47, `~` = 126, `0` = 48, `1` = 49. -/

/-- `ptr.split("/")`. -/
def splitSlash : List Nat → List (List Nat)
  | [] => [[]]
  | c :: rest =>
    let r := splitSlash rest
    if c = 47 then [] :: r
    else
      match r with
      | t :: ts => (c :: t) :: ts
      | [] => [[c]]

/-- The character-by-character `~`-escape loop inside `_parse_pointer`. -/
def decodeToken : List Nat → Except ErrCode (List Nat)
  | [] => .ok []
  | c :: rest =>
    if c ≠ 126 then do
      let d ← decodeToken rest
      .ok (c :: d)
    else
      match rest with
      | [] => .error ERR_SCHEMA
      | n :: rest' =>
        if n = 48 then do
          let d ← decodeToken rest'
          .ok (126 :: d)
        else if n = 49 then do
          let d ← decodeToken rest'
          .ok (47 :: d)
        else .error ERR_SCHEMA

def decodeTokens : List (List Nat) → Except ErrCode (List (List Nat))
  | [] => .ok []
  | t :: ts => do
    let d ← decodeToken t
    let ds ← decodeTokens ts
    .ok (d :: ds)

/-- `_parse_pointer(ptr)`. -/
def _parse_pointer (ptr : List Nat) : Except ErrCode (List (List Nat)) :=
  if ptr = [] then .ok []
  else if ptr.head? ≠ some 47 then .error ERR_SCHEMA
  else decodeTokens (splitSlash ptr).tail

/-- `tok in cur` / `cur.get(tok)` on the dict model. -/
def mapLookup (tok : List Nat) : List (List Nat × Value) → Option Value
  | [] => none
  | (k, v) :: rest => if k = tok then some v else mapLookup tok rest

/-- The per-pointer walk of the match phase (`bind_project`, first loop). -/
def ptr_walk : List (List Nat) → Value → Except ErrCode Bool
  | [], _ => .ok true
  | tok :: toks, cur =>
    match cur with
    | vlist _ => .error ERR_SCHEMA
    | vmap es =>
      match mapLookup tok es with
      | some v => ptr_walk toks v
      | none => .ok false
    | _ => .ok false

structure MatchState where
  anyMatch : Bool
  anyUnmatched : Bool
  matched : List (List (List Nat))

/-- The match loop over the parsed pointers. -/
def match_loop (desc : Value) : List (List Nat × List (List Nat)) → MatchState →
    Except ErrCode MatchState
  | [], st => .ok st
  | (ptr, toks) :: rest, st =>
    if ptr = [] then match_loop desc rest { st with anyMatch := true }
    else do
      let res ← ptr_walk toks desc
      if res then
        match_loop desc rest
          { anyMatch := true, anyUnmatched := st.anyUnmatched, matched := st.matched ++ [toks] }
      else match_loop desc rest { st with anyUnmatched := true }

/-- Rule (a): parse all pointers up front. -/
def parse_all : List (List Nat) → Except ErrCode (List (List Nat × List (List Nat)))
  | [] => .ok []
  | p :: ps => do
    let t ← _parse_pointer p
    let rest ← parse_all ps
    .ok ((p, t) :: rest)

/-- Rule (d): `is_subsumed`. -/
def is_subsumed (toks : List (List Nat)) (paths : List (List (List Nat))) : Bool :=
  paths.any (fun other => decide (other.length < toks.length ∧ toks.take other.length = other))

/-- The descriptor walk of the build loop (`path_keys` and the final `cur`).
A missing key would be a Python `KeyError` crash, not a `MapError`; it is
modelled by the `EXHAUSTED` artifact and is unreachable because the build
loop only receives matched paths. -/
def build_walk : Value → List (List Nat) → Except ErrCode Value
  | cur, [] => .ok cur
  | cur, tok :: toks =>
    match cur with
    | vlist _ => .error ERR_SCHEMA
    | vmap es =>
      match mapLookup tok es with
      | some v => build_walk v toks
      | none => .error EXHAUSTED
    | _ => .error ERR_SCHEMA

/-- `target[tok] = value` on the dict model: replace in place, else append. -/
def dictAssign (tok : List Nat) (value : Value) :
    List (List Nat × Value) → List (List Nat × Value)
  | [] => [(tok, value)]
  | (k, v) :: rest => if k = tok then (tok, value) :: rest else (k, v) :: dictAssign tok value rest

/-- The projected-tree writing loop: create nested MAPs along the path and put
the leaf at the tip (empty paths cannot occur among effective paths). -/
def insert_path : List (List Nat × Value) → List (List Nat) → Value →
    Except ErrCode (List (List Nat × Value))
  | proj, [tok], leaf => .ok (dictAssign tok leaf proj)
  | proj, tok :: toks, leaf =>
    match mapLookup tok proj with
    | none => do
      let sub ← insert_path [] toks leaf
      .ok (proj ++ [(tok, vmap sub)])
    | some (vmap m) => do
      let sub ← insert_path m toks leaf
      .ok (dictAssign tok (vmap sub) proj)
    | some _ => .error ERR_SCHEMA
  | _, [], _ => .error EXHAUSTED

/-- The build loop over the effective paths. -/
def build_projected (desc : Value) : List (List (List Nat)) → List (List Nat × Value) →
    Except ErrCode (List (List Nat × Value))
  | [], proj => .ok proj
  | toks :: rest, proj => do
    let leaf ← build_walk desc toks
    let proj' ← insert_path proj toks leaf
    build_projected desc rest proj'

/-- `bind_project(descriptor, pointers)`. -/
def bind_project (desc : Value) (ptrs : List (List Nat)) : Except ErrCode Value :=
  match desc with
  | vmap _ =>
    if ¬ ptrs.Nodup then .error ERR_SCHEMA
    else do
      let parsed ← parse_all ptrs
      let st ← match_loop desc parsed ⟨false, false, []⟩
      if ¬ st.anyMatch then .ok (vmap [])
      else if st.anyUnmatched then .error ERR_SCHEMA
      else if parsed.any (fun pt => decide (pt.1 = [])) then .ok desc
      else do
        let effective := st.matched.filter (fun t => ! is_subsumed t st.matched)
        let proj ← build_projected desc effective []
        .ok (vmap proj)
  | _ => .error ERR_SCHEMA

/-- `canonical_bytes_bind(descriptor, pointers)` (`__init__.py`). -/
def canonical_bytes_bind (desc : Value) (ptrs : List (List Nat)) :
    Except ErrCode (List Nat) := do
  let v ← bind_project desc ptrs
  canon_bytes_from_value v

/-- `mid_bind(descriptor, pointers)` (`__init__.py`). -/
def mid_bind (desc : Value) (ptrs : List (List Nat)) : Except ErrCode String := do
  let v ← bind_project desc ptrs
  mid_from_value v

/-! ## JSON-STRICT adapter (`_json_adapter.py`)

The byte-level front end of `json_strict_parse_with_dups` (the 1 MiB check,
BOM rejection and UTF-8 decode of the raw input) and the grammar of
`json.loads` belong to CPython's `json` library, not to this repository.  The
adapter is therefore modelled from the point where `json.loads` hands tokens
to the repository's hooks: a `JTok` is the token tree of a syntactically valid
JSON document.  Objects keep their pairs in source order, duplicates included;
a number token is `jint` (no `.`/`e`, routed to `parse_int`) or `jfloat`
(routed to `parse_float`); `jconst` stands for the `NaN`/`Infinity` extension
constants (routed to `parse_constant`).  Evaluation is depth-first and
left-to-right, exactly as in `json.loads`, and each object's
`object_pairs_hook` runs once all of its pair values have been parsed. -/

inductive JTok where
  | jobj : List (List Nat × JTok) → JTok
  | jarr : List JTok → JTok
  | jstr : List Nat → JTok
  | jint : Int → JTok
  | jfloat : JTok
  | jbool : Bool → JTok
  | jnull : JTok
  | jconst : JTok

/-- Values as they leave `json.loads` with the adapter's hooks installed
(floats replaced by the `_FloatSentinel`, objects already deduplicated). -/
inductive PVal where
  | pstr : List Nat → PVal
  | pint : Int → PVal
  | pbool : Bool → PVal
  | pnull : PVal
  | pfloatSentinel : PVal
  | plist : List PVal → PVal
  | pdict : List (List Nat × PVal) → PVal

open JTok PVal

/-- `_ensure_no_surrogates(s)`. -/
def _ensure_no_surrogates (s : List Nat) : Except ErrCode Unit :=
  if s.any isSurrogate then .error ERR_UTF8 else .ok ()

/-- `_intercept_int(s)`: range-check the integer token's value. -/
def _intercept_int (n : Int) : Except ErrCode Int :=
  if n < INT64_MIN ∨ n > INT64_MAX then .error ERR_TYPE else .ok n

/-- The `pairs_hook` loop: surrogate-check each key, keep the first occurrence
of each key, flag duplicates.  `seen` is exactly the key set of the
accumulated result. -/
def pairs_hook_loop (acc : List (List Nat × PVal)) (dup : Bool) :
    List (List Nat × PVal) → Except ErrCode (List (List Nat × PVal) × Bool)
  | [] => .ok (acc, dup)
  | (k, v) :: rest => do
    _ensure_no_surrogates k
    if (acc.map Prod.fst).contains k then pairs_hook_loop acc true rest
    else pairs_hook_loop (acc ++ [(k, v)]) dup rest

mutual

/-- Token-tree part of `json_strict_parse_with_dups(raw)`: returns the parsed
value and the `dup_found` flag (a nonlocal Boolean in Python, threaded here). -/
def json_strict_parse_with_dups : JTok → Except ErrCode (PVal × Bool)
  | jstr s => .ok (pstr s, false)
  | jint n => do
    let n' ← _intercept_int n
    .ok (pint n', false)
  | jfloat => .ok (pfloatSentinel, false)
  | jbool b => .ok (pbool b, false)
  | jnull => .ok (pnull, false)
  | jconst => .error ERR_CANON_MCF
  | jarr items => do
    let (vs, d) ← json_parse_items items
    .ok (plist vs, d)
  | jobj pairs => do
    let (ps, d) ← json_parse_pairs pairs
    let (res, d2) ← pairs_hook_loop [] false ps
    .ok (pdict res, d || d2)

def json_parse_items : List JTok → Except ErrCode (List PVal × Bool)
  | [] => .ok ([], false)
  | t :: ts => do
    let (v, d1) ← json_strict_parse_with_dups t
    let (vs, d2) ← json_parse_items ts
    .ok (v :: vs, d1 || d2)

def json_parse_pairs : List (List Nat × JTok) → Except ErrCode (List (List Nat × PVal) × Bool)
  | [] => .ok ([], false)
  | (k, t) :: rest => do
    let (v, d1) ← json_strict_parse_with_dups t
    let (ps, d2) ← json_parse_pairs rest
    .ok ((k, v) :: ps, d1 || d2)

end

/-- `isinstance(v, (dict, list))` on the parsed-value model. -/
def isPContainer : PVal → Bool
  | plist _ => true
  | pdict _ => true
  | _ => false

mutual

/-- `json_to_canon_value(x, depth)`. -/
def json_to_canon_value : PVal → Nat → Except ErrCode Value
  | x, depth =>
    if depth > MAX_DEPTH then .error ERR_LIMIT_DEPTH
    else
      match x with
      | pdict l => do
        let es ← json_canon_entries l depth
        .ok (vmap es)
      | plist l => do
        let vs ← json_canon_items l depth
        .ok (vlist vs)
      | pstr s => do
        _ensure_no_surrogates s
        .ok (vstr s)
      | pbool b => .ok (vbool b)
      | pint n => .ok (vint n)
      | pnull => .error ERR_TYPE
      | pfloatSentinel => .error ERR_TYPE

def json_canon_entries : List (List Nat × PVal) → Nat → Except ErrCode (List (List Nat × Value))
  | [], _ => .ok []
  | (k, v) :: rest, depth => do
    _ensure_no_surrogates k
    let cd := if isPContainer v then depth + 1 else depth
    let v' ← json_to_canon_value v cd
    let rest' ← json_canon_entries rest depth
    .ok ((k, v') :: rest')

def json_canon_items : List PVal → Nat → Except ErrCode (List Value)
  | [], _ => .ok []
  | v :: rest, depth => do
    let cd := if isPContainer v then depth + 1 else depth
    let v' ← json_to_canon_value v cd
    let rest' ← json_canon_items rest depth
    .ok (v' :: rest')

end

/-- `mid_full_json(raw)` on the token tree of the JSON input. -/
def mid_full_json (t : JTok) : Except ErrCode String := do
  let (obj, dup) ← json_strict_parse_with_dups t
  let val ← json_to_canon_value obj 1
  let canon ← canon_bytes_from_value val
  if dup then .error ERR_DUP_KEY else .ok (mid_string canon)

/-! ## General helpers for reasoning about `Except` pipelines -/

deriving instance DecidableEq for Except

@[simp] theorem bind_ok_left {ε α β : Type _} (a : α) (f : α → Except ε β) :
    (Except.ok a >>= f) = f a := rfl

@[simp] theorem bind_error_left {ε α β : Type _} (e : ε) (f : α → Except ε β) :
    ((Except.error e : Except ε α) >>= f) = .error e := rfl

@[simp] theorem pure_eq_ok {ε α : Type _} (a : α) : (pure a : Except ε α) = .ok a := rfl

/-- One-step unfolding of the INTEGER branch of the encoder. -/
theorem mcf_encode_vint (fuel : Nat) (n : Int) (d : Nat) :
    mcf_encode_value (fuel + 1) (Value.vint n) d =
      if n < INT64_MIN ∨ n > INT64_MAX then .error ERR_SCHEMA
      else .ok (TAG_INTEGER :: int64be n) := rfl

/-! ## Claim theorems -/

/-- C9: `canonical_bytes_full(True)` is exactly `4D 41 50 31 00 05 01` and
`canonical_bytes_full(False)` is exactly `4D 41 50 31 00 05 00`. -/
theorem C9_boolean_canon_bytes :
    canonical_bytes_full (Value.vbool true) = .ok [0x4D, 0x41, 0x50, 0x31, 0x00, 0x05, 0x01] ∧
    canonical_bytes_full (Value.vbool false) = .ok [0x4D, 0x41, 0x50, 0x31, 0x00, 0x05, 0x00] :=
  ⟨rfl, rfl⟩

/-- C1 (counterexample): encoding the out-of-int64 integer 2⁶³ fails with
`ERR_SCHEMA`, not `ERR_TYPE` as the claim states (`_core.py` line 137; the
implementation's own test `test_overflow_positive` also expects
`ERR_SCHEMA`). -/
theorem C1_counterexample :
    canonical_bytes_full (Value.vint (2 ^ 63)) = .error ERR_SCHEMA ∧
    mid_full (Value.vint (2 ^ 63)) = .error ERR_SCHEMA ∧
    ERR_SCHEMA ≠ ERR_TYPE :=
  ⟨rfl, rfl, by decide⟩

/-- C1 (amended): for every canonical-model integer outside
[−2⁶³, 2⁶³−1], both `canonical_bytes_full` and `mid_full` fail with
`ERR_SCHEMA`. -/
theorem C1_out_of_range_integer (n : Int) (h : n < INT64_MIN ∨ n > INT64_MAX) :
    canonical_bytes_full (Value.vint n) = .error ERR_SCHEMA ∧
    mid_full (Value.vint n) = .error ERR_SCHEMA := by
  have he : mcf_encode_value FUEL (Value.vint n) 0 = .error ERR_SCHEMA := by
    rw [show FUEL = 63 + 1 from rfl, mcf_encode_vint, if_pos h]
  refine ⟨?_, ?_⟩ <;>
    simp [canonical_bytes_full, mid_full, full_project, mid_from_value,
          canon_bytes_from_value, he]

/-- C1 (witness). -/
theorem C1_out_of_range_integer_witness :
    canonical_bytes_full (Value.vint (-(2 ^ 63) - 1)) = .error ERR_SCHEMA ∧
    mid_full (Value.vint (-(2 ^ 63) - 1)) = .error ERR_SCHEMA :=
  C1_out_of_range_integer (-(2 ^ 63) - 1) (by left; decide)

/-- C8: pointer parsing: `""` parses to the empty token list; a nonempty
pointer not starting with `/` (47) raises `ERR_SCHEMA`; `~1` decodes to `/`
and `~0` to `~`, character by character, so `"/~01"` yields the token `"~1"`
(and not `"/"`); any other `~`-escape, and a trailing lone `~`, raise
`ERR_SCHEMA`. -/
theorem C8_pointer_parsing :
    _parse_pointer [] = .ok [] ∧
    (∀ s : List Nat, s ≠ [] → s.head? ≠ some 47 → _parse_pointer s = .error ERR_SCHEMA) ∧
    _parse_pointer [47, 126, 49] = .ok [[47]] ∧
    _parse_pointer [47, 126, 48] = .ok [[126]] ∧
    _parse_pointer [47, 126, 48, 49] = .ok [[126, 49]] ∧
    (∀ c : Nat, c ≠ 48 → c ≠ 49 → _parse_pointer [47, 126, c] = .error ERR_SCHEMA) ∧
    _parse_pointer [47, 126] = .error ERR_SCHEMA := by
  refine ⟨rfl, ?_, rfl, rfl, rfl, ?_, rfl⟩
  · intro s h1 h2
    simp [_parse_pointer, h1, h2]
  · intro c h48 h49
    by_cases hc : c = 47
    · subst hc; decide
    · simp [_parse_pointer, splitSlash, decodeTokens, decodeToken, hc, h48, h49]

/-- C8 (witness): the two universally quantified clauses at concrete inputs. -/
theorem C8_pointer_parsing_witness :
    _parse_pointer [97, 98] = .error ERR_SCHEMA ∧
    _parse_pointer [47, 126, 55] = .error ERR_SCHEMA :=
  ⟨C8_pointer_parsing.2.1 [97, 98] (by decide) (by decide),
   C8_pointer_parsing.2.2.2.2.2.1 55 (by decide) (by decide)⟩

/-! ## C2: duplicate key plus over-deep nesting in `mid_full_json` -/

/-- A JSON token tree of `n + 1` nested arrays (`[[…[]…]]`). -/
def nestArr : Nat → JTok
  | 0 => .jarr []
  | n + 1 => .jarr [nestArr n]

/-- Parsed form of `nestArr`. -/
def nestPv : Nat → PVal
  | 0 => .plist []
  | n + 1 => .plist [nestPv n]

theorem nestArr_parse (n : Nat) :
    json_strict_parse_with_dups (nestArr n) = .ok (nestPv n, false) := by
  induction n with
  | zero => rfl
  | succ n ih =>
    simp [nestArr, nestPv, json_strict_parse_with_dups, json_parse_items, ih]

theorem nestPv_isContainer (n : Nat) : isPContainer (nestPv n) = true := by
  cases n <;> rfl

/-- `json_to_canon_value` rejects as soon as its depth argument exceeds 32. -/
theorem json_to_canon_depth_exceeded (x : PVal) (d : Nat) (h : d > MAX_DEPTH) :
    json_to_canon_value x d = .error ERR_LIMIT_DEPTH := by
  rw [json_to_canon_value.eq_def]
  simp [h]

theorem nestPv_depth_error (n : Nat) : ∀ d : Nat, 32 < d + n →
    json_to_canon_value (nestPv n) d = .error ERR_LIMIT_DEPTH := by
  induction n with
  | zero =>
    intro d hd
    exact json_to_canon_depth_exceeded _ _ (by simp [MAX_DEPTH]; omega)
  | succ n ih =>
    intro d hd
    by_cases h : d > MAX_DEPTH
    · exact json_to_canon_depth_exceeded _ _ h
    · have hch := ih (d + 1) (by omega)
      rw [nestPv, json_to_canon_value.eq_def]
      simp [h, json_canon_items, nestPv_isContainer, hch]

/-- C2: on the JSON input `{"a": 1, "a": 2, "b": [[…]]}` (32 nested arrays,
container depth 33) — whose only violations are the duplicate key and the
depth excess — `mid_full_json` reports `ERR_LIMIT_DEPTH`, not `ERR_DUP_KEY`
as the claim (and the precedence rule, and the comment in `mid_full_json`
itself) require: `json_to_canon_value` runs before the deferred
duplicate-key check. -/
theorem C2_code_divergence :
    mid_full_json (JTok.jobj [([97], .jint 1), ([97], .jint 2), ([98], nestArr 31)])
      = .error ERR_LIMIT_DEPTH ∧ ERR_LIMIT_DEPTH ≠ ERR_DUP_KEY := by
  refine ⟨?_, by decide⟩
  have hp := nestArr_parse 31
  have hpairs : json_parse_pairs [([97], JTok.jint 1), ([97], JTok.jint 2), ([98], nestArr 31)]
      = .ok ([([97], PVal.pint 1), ([97], PVal.pint 2), ([98], nestPv 31)], false) := by
    simp [json_parse_pairs, hp,
      show json_strict_parse_with_dups (.jint 1) = .ok (.pint 1, false) from rfl,
      show json_strict_parse_with_dups (.jint 2) = .ok (.pint 2, false) from rfl]
  have hhook : pairs_hook_loop [] false
        [([97], PVal.pint 1), ([97], PVal.pint 2), ([98], nestPv 31)]
      = .ok ([([97], PVal.pint 1), ([98], nestPv 31)], true) := rfl
  have hconv : json_to_canon_value (.pdict [([97], PVal.pint 1), ([98], nestPv 31)]) 1
      = .error ERR_LIMIT_DEPTH := by
    have hc := nestPv_depth_error 31 2 (by omega)
    rw [json_to_canon_value.eq_def]
    simp [MAX_DEPTH, json_canon_entries,
      show _ensure_no_surrogates [97] = .ok () from rfl,
      show _ensure_no_surrogates [98] = .ok () from rfl,
      show json_to_canon_value (PVal.pint 1) 1 = .ok (Value.vint 1) from rfl,
      show isPContainer (PVal.pint 1) = false from rfl,
      nestPv_isContainer, hc]
  simp [mid_full_json, json_strict_parse_with_dups, hpairs, hhook, hconv]

/-! ## C3: duplicate key plus null in `mid_full_json` -/

/-- C3 (counterexample): `{"a": 1, "a": null}` contains both a duplicate
object key and a null value, yet `mid_full_json` reports `ERR_DUP_KEY`: the
null sits inside the second occurrence of `"a"`, which `pairs_hook` drops, so
no `ERR_TYPE` ever fires. -/
theorem C3_counterexample :
    mid_full_json (JTok.jobj [([97], .jint 1), ([97], .jnull)]) = .error ERR_DUP_KEY ∧
    ERR_DUP_KEY ≠ ERR_TYPE :=
  ⟨rfl, by decide⟩

/-- Structural induction principle for the nested inductive `JTok`. -/
theorem jtok_induction (motive : JTok → Prop)
    (h1 : ∀ s, motive (.jstr s)) (h2 : ∀ n, motive (.jint n)) (h3 : motive .jfloat)
    (h4 : ∀ b, motive (.jbool b)) (h5 : motive .jnull) (h6 : motive .jconst)
    (h7 : ∀ items, (∀ t ∈ items, motive t) → motive (.jarr items))
    (h8 : ∀ pairs, (∀ kt ∈ pairs, motive kt.2) → motive (.jobj pairs)) :
    ∀ t, motive t := by
  have key : ∀ n t, sizeOf t ≤ n → motive t := by
    intro n
    induction n with
    | zero => intro t ht; cases t <;> simp at ht
    | succ n ih =>
      intro t ht
      cases t with
      | jstr s => exact h1 s
      | jint m => exact h2 m
      | jfloat => exact h3
      | jbool b => exact h4 b
      | jnull => exact h5
      | jconst => exact h6
      | jarr items =>
        refine h7 items (fun x hx => ih x ?_)
        have hlt := List.sizeOf_lt_of_mem hx
        simp at ht
        omega
      | jobj pairs =>
        refine h8 pairs (fun kt hkt => ih kt.2 ?_)
        have hlt := List.sizeOf_lt_of_mem hkt
        have hp : sizeOf kt.2 < sizeOf kt := by
          cases kt with
          | mk k t2 => simp
        simp at ht
        omega
  exact fun t => key (sizeOf t) t (Nat.le_refl _)

/-- Structural induction principle for the nested inductive `PVal`. -/
theorem pval_induction (motive : PVal → Prop)
    (h1 : ∀ s, motive (.pstr s)) (h2 : ∀ n, motive (.pint n)) (h3 : ∀ b, motive (.pbool b))
    (h4 : motive .pnull) (h5 : motive .pfloatSentinel)
    (h6 : ∀ items, (∀ x ∈ items, motive x) → motive (.plist items))
    (h7 : ∀ pairs, (∀ kv ∈ pairs, motive kv.2) → motive (.pdict pairs)) :
    ∀ x, motive x := by
  have key : ∀ n x, sizeOf x ≤ n → motive x := by
    intro n
    induction n with
    | zero => intro x hx; cases x <;> simp at hx
    | succ n ih =>
      intro x hx
      cases x with
      | pstr s => exact h1 s
      | pint m => exact h2 m
      | pbool b => exact h3 b
      | pnull => exact h4
      | pfloatSentinel => exact h5
      | plist items =>
        refine h6 items (fun y hy => ih y ?_)
        have hlt := List.sizeOf_lt_of_mem hy
        simp at hx
        omega
      | pdict pairs =>
        refine h7 pairs (fun kv hkv => ih kv.2 ?_)
        have hlt := List.sizeOf_lt_of_mem hkv
        have hp : sizeOf kv.2 < sizeOf kv := by
          cases kv with
          | mk k v => simp
        simp at hx
        omega
  exact fun x => key (sizeOf x) x (Nat.le_refl _)

/-- Does this key list contain two equal keys? -/
def keysHaveDup : List (List Nat) → Bool
  | [] => false
  | k :: rest => rest.contains k || keysHaveDup rest

mutual

/-- Does the token tree contain an object with a duplicated key? -/
def hasDupKey : JTok → Bool
  | .jobj pairs => keysHaveDup (pairs.map Prod.fst) || hasDupKeyPairs pairs
  | .jarr items => hasDupKeyItems items
  | _ => false

def hasDupKeyItems : List JTok → Bool
  | [] => false
  | t :: ts => hasDupKey t || hasDupKeyItems ts

def hasDupKeyPairs : List (List Nat × JTok) → Bool
  | [] => false
  | (_, t) :: rest => hasDupKey t || hasDupKeyPairs rest

end

mutual

/-- Does the token tree contain a `NaN`/`Infinity` extension constant? -/
def hasConstJ : JTok → Bool
  | .jconst => true
  | .jarr items => hasConstItems items
  | .jobj pairs => hasConstPairs pairs
  | _ => false

def hasConstItems : List JTok → Bool
  | [] => false
  | t :: ts => hasConstJ t || hasConstItems ts

def hasConstPairs : List (List Nat × JTok) → Bool
  | [] => false
  | (_, t) :: rest => hasConstJ t || hasConstPairs rest

end

mutual

/-- Surrogates anywhere a check can fire: string values and object keys. -/
def hasSurrJ : JTok → Bool
  | .jstr s => s.any isSurrogate
  | .jarr items => hasSurrItems items
  | .jobj pairs => hasSurrPairs pairs
  | _ => false

def hasSurrItems : List JTok → Bool
  | [] => false
  | t :: ts => hasSurrJ t || hasSurrItems ts

def hasSurrPairs : List (List Nat × JTok) → Bool
  | [] => false
  | (k, t) :: rest => k.any isSurrogate || hasSurrJ t || hasSurrPairs rest

end

mutual

/-- Does the token tree contain a `null`? -/
def hasNullJ : JTok → Bool
  | .jnull => true
  | .jarr items => hasNullItems items
  | .jobj pairs => hasNullPairs pairs
  | _ => false

def hasNullItems : List JTok → Bool
  | [] => false
  | t :: ts => hasNullJ t || hasNullItems ts

def hasNullPairs : List (List Nat × JTok) → Bool
  | [] => false
  | (_, t) :: rest => hasNullJ t || hasNullPairs rest

end

mutual

/-- Container-nesting depth of the token tree (scalars are 0). -/
def jdepth : JTok → Nat
  | .jarr items => 1 + jdepthItems items
  | .jobj pairs => 1 + jdepthPairs pairs
  | _ => 0

def jdepthItems : List JTok → Nat
  | [] => 0
  | t :: ts => max (jdepth t) (jdepthItems ts)

def jdepthPairs : List (List Nat × JTok) → Nat
  | [] => 0
  | (_, t) :: rest => max (jdepth t) (jdepthPairs rest)

end

mutual

/-- First-occurrence deduplication of every object: what `pairs_hook` retains. -/
def dedupJ : JTok → JTok
  | .jobj pairs => .jobj (dedupPairs [] pairs)
  | .jarr items => .jarr (dedupItems items)
  | t => t

def dedupItems : List JTok → List JTok
  | [] => []
  | t :: ts => dedupJ t :: dedupItems ts

def dedupPairs (seen : List (List Nat)) : List (List Nat × JTok) → List (List Nat × JTok)
  | [] => []
  | (k, t) :: rest =>
    if seen.contains k then dedupPairs seen rest
    else (k, dedupJ t) :: dedupPairs (seen ++ [k]) rest

end

mutual

/-- The translation `json.loads` performs on an already-deduplicated tree
(`jconst` never survives the side conditions and is mapped arbitrarily). -/
def toPVal : JTok → PVal
  | .jobj pairs => .pdict (toPValPairs pairs)
  | .jarr items => .plist (toPValItems items)
  | .jstr s => .pstr s
  | .jint n => .pint n
  | .jfloat => .pfloatSentinel
  | .jbool b => .pbool b
  | .jnull => .pnull
  | .jconst => .pfloatSentinel

def toPValItems : List JTok → List PVal
  | [] => []
  | t :: ts => toPVal t :: toPValItems ts

def toPValPairs : List (List Nat × JTok) → List (List Nat × PVal)
  | [] => []
  | (k, t) :: rest => (k, toPVal t) :: toPValPairs rest

end

/-- First-occurrence selection on parsed pairs (the pure content of
`pairs_hook`'s accumulation). -/
def dedupSelect (seen : List (List Nat)) : List (List Nat × PVal) → List (List Nat × PVal)
  | [] => []
  | (k, v) :: rest =>
    if seen.contains k then dedupSelect seen rest
    else (k, v) :: dedupSelect (seen ++ [k]) rest

mutual

/-- Does the parsed value contain a null? -/
def hasNullP : PVal → Bool
  | .pnull => true
  | .plist l => hasNullPItems l
  | .pdict l => hasNullPPairs l
  | _ => false

def hasNullPItems : List PVal → Bool
  | [] => false
  | v :: vs => hasNullP v || hasNullPItems vs

def hasNullPPairs : List (List Nat × PVal) → Bool
  | [] => false
  | (_, v) :: rest => hasNullP v || hasNullPPairs rest

end

mutual

/-- Surrogates in parsed string values and dict keys. -/
def hasSurrP : PVal → Bool
  | .pstr s => s.any isSurrogate
  | .plist l => hasSurrPItems l
  | .pdict l => hasSurrPPairs l
  | _ => false

def hasSurrPItems : List PVal → Bool
  | [] => false
  | v :: vs => hasSurrP v || hasSurrPItems vs

def hasSurrPPairs : List (List Nat × PVal) → Bool
  | [] => false
  | (k, v) :: rest => k.any isSurrogate || hasSurrP v || hasSurrPPairs rest

end

mutual

/-- Container-nesting depth of the parsed value (scalars are 0). -/
def pdepth : PVal → Nat
  | .plist l => 1 + pdepthItems l
  | .pdict l => 1 + pdepthPairs l
  | _ => 0

def pdepthItems : List PVal → Nat
  | [] => 0
  | v :: vs => max (pdepth v) (pdepthItems vs)

def pdepthPairs : List (List Nat × PVal) → Nat
  | [] => 0
  | (_, v) :: rest => max (pdepth v) (pdepthPairs rest)

end

theorem dedupSelect_cons (seen : List (List Nat)) (k : List Nat) (v : PVal)
    (rest : List (List Nat × PVal)) :
    dedupSelect seen ((k, v) :: rest) =
      if seen.contains k then dedupSelect seen rest
      else (k, v) :: dedupSelect (seen ++ [k]) rest := rfl

theorem pairs_hook_loop_ok (ps : List (List Nat × PVal)) :
    ∀ acc dup res d, pairs_hook_loop acc dup ps = .ok (res, d) →
      res = acc ++ dedupSelect (acc.map Prod.fst) ps := by
  induction ps with
  | nil =>
    intro acc dup res d h
    simp [pairs_hook_loop] at h
    simp [dedupSelect, h.1.symm]
  | cons kv rest ih =>
    obtain ⟨k, v⟩ := kv
    intro acc dup res d h
    rw [pairs_hook_loop] at h
    by_cases hks : k.any isSurrogate
    · simp [_ensure_no_surrogates, hks] at h
    · simp only [_ensure_no_surrogates, hks, Bool.false_eq_true, if_false, bind_ok_left] at h
      by_cases hc : (acc.map Prod.fst).contains k
      · rw [if_pos hc] at h
        have := ih acc true res d h
        rw [dedupSelect_cons, if_pos hc]
        exact this
      · rw [if_neg hc] at h
        have := ih (acc ++ [(k, v)]) dup res d h
        rw [dedupSelect_cons, if_neg hc]
        simpa [List.append_assoc] using this

theorem pairs_hook_loop_total (ps : List (List Nat × PVal))
    (hk : ∀ kv ∈ ps, kv.1.any isSurrogate = false) :
    ∀ acc dup, ∃ res d, pairs_hook_loop acc dup ps = .ok (res, d) := by
  induction ps with
  | nil => intro acc dup; exact ⟨acc, dup, rfl⟩
  | cons kv rest ih =>
    obtain ⟨k, v⟩ := kv
    intro acc dup
    have hks : k.any isSurrogate = false := hk (k, v) (by simp)
    have hrest : ∀ kv ∈ rest, kv.1.any isSurrogate = false :=
      fun kv hm => hk kv (by simp [hm])
    rw [pairs_hook_loop]
    simp only [_ensure_no_surrogates, hks, Bool.false_eq_true, if_false, bind_ok_left]
    by_cases hc : (acc.map Prod.fst).contains k
    · rw [if_pos hc]; exact ih hrest acc true
    · rw [if_neg hc]; exact ih hrest (acc ++ [(k, v)]) dup

/-- Shorthand for the per-token characterization used below. -/
def ParseChar (t : JTok) : Prop :=
  json_strict_parse_with_dups t = .error ERR_TYPE ∨
  ∃ d, json_strict_parse_with_dups t = .ok (toPVal (dedupJ t), d)

theorem parse_items_char (ts : List JTok)
    (hIH : ∀ t ∈ ts, hasConstJ t = false → hasSurrJ t = false → ParseChar t)
    (hc : hasConstItems ts = false) (hs : hasSurrItems ts = false) :
    json_parse_items ts = .error ERR_TYPE ∨
    ∃ d, json_parse_items ts = .ok (toPValItems (dedupItems ts), d) := by
  induction ts with
  | nil => right; exact ⟨false, rfl⟩
  | cons t rest ih =>
    rw [hasConstItems] at hc
    rw [hasSurrItems] at hs
    simp only [Bool.or_eq_false_iff] at hc hs
    cases hIH t (by simp) hc.1 hs.1 with
    | inl herr => left; simp [json_parse_items, herr]
    | inr hok =>
      obtain ⟨d, hok⟩ := hok
      cases ih (fun x hx => hIH x (by simp [hx])) hc.2 hs.2 with
      | inl herr => left; simp [json_parse_items, hok, herr]
      | inr hrest =>
        obtain ⟨d2, hrest⟩ := hrest
        right
        exact ⟨d || d2, by simp [json_parse_items, hok, hrest, toPValItems, dedupItems]⟩

theorem parse_pairs_char (pairs : List (List Nat × JTok))
    (hIH : ∀ kt ∈ pairs, hasConstJ kt.2 = false → hasSurrJ kt.2 = false → ParseChar kt.2)
    (hc : hasConstPairs pairs = false) (hs : hasSurrPairs pairs = false) :
    json_parse_pairs pairs = .error ERR_TYPE ∨
    ∃ d ps, json_parse_pairs pairs = .ok (ps, d) ∧
      ps.map Prod.fst = pairs.map Prod.fst ∧
      ∀ seen, dedupSelect seen ps = toPValPairs (dedupPairs seen pairs) := by
  induction pairs with
  | nil => right; exact ⟨false, [], rfl, rfl, fun _ => rfl⟩
  | cons kt rest ih =>
    obtain ⟨k, t⟩ := kt
    rw [hasConstPairs] at hc
    rw [hasSurrPairs] at hs
    simp only [Bool.or_eq_false_iff] at hc hs
    cases hIH (k, t) (by simp) hc.1 hs.1.2 with
    | inl herr => left; simp [json_parse_pairs, herr]
    | inr hok =>
      obtain ⟨d, hok⟩ := hok
      cases ih (fun x hx => hIH x (by simp [hx])) hc.2 hs.2 with
      | inl herr => left; simp [json_parse_pairs, hok, herr]
      | inr hrest =>
        obtain ⟨d2, ps, hps, hkeys, hsel⟩ := hrest
        right
        refine ⟨d || d2, (k, toPVal (dedupJ t)) :: ps, ?_, ?_, ?_⟩
        · simp [json_parse_pairs, hok, hps]
        · simp [hkeys]
        · intro seen
          rw [dedupSelect_cons]
          by_cases hcon : seen.contains k
          · rw [if_pos hcon]
            rw [show dedupPairs seen ((k, t) :: rest) = dedupPairs seen rest from by
              rw [dedupPairs]; rw [if_pos hcon]]
            exact hsel seen
          · rw [if_neg hcon]
            rw [show dedupPairs seen ((k, t) :: rest)
                = (k, dedupJ t) :: dedupPairs (seen ++ [k]) rest from by
              rw [dedupPairs]; rw [if_neg hcon]]
            rw [toPValPairs]
            rw [hsel (seen ++ [k])]

theorem hasSurrPairs_key (pairs : List (List Nat × JTok)) (hs : hasSurrPairs pairs = false) :
    ∀ kt ∈ pairs, kt.1.any isSurrogate = false := by
  induction pairs with
  | nil => intro kt h; simp at h
  | cons p rest ih =>
    obtain ⟨pk, pt⟩ := p
    rw [hasSurrPairs] at hs
    simp only [Bool.or_eq_false_iff] at hs
    intro kt hm
    cases List.mem_cons.mp hm with
    | inl heq => subst heq; exact hs.1.1
    | inr hmem => exact ih hs.2 kt hmem

/-- Complete characterization of the adapter's parse under the two side
conditions: it either fails with `ERR_TYPE` (integer token out of range) or
returns exactly the first-occurrence-deduplicated translation of the input. -/
theorem parse_characterization :
    ∀ t : JTok, hasConstJ t = false → hasSurrJ t = false → ParseChar t := by
  refine jtok_induction _ ?_ ?_ ?_ ?_ ?_ ?_ ?_ ?_
  · intro s _ _; right; exact ⟨false, rfl⟩
  · intro n _ _
    by_cases h : n < INT64_MIN ∨ n > INT64_MAX
    · left
      simp [json_strict_parse_with_dups, _intercept_int, h]
    · right
      refine ⟨false, ?_⟩
      simp [json_strict_parse_with_dups, _intercept_int, h, toPVal, dedupJ]
  · intro _ _; right; exact ⟨false, rfl⟩
  · intro b _ _; right; exact ⟨false, rfl⟩
  · intro _ _; right; exact ⟨false, rfl⟩
  · intro hc; simp [hasConstJ] at hc
  · intro items hIH hc hs
    rw [hasConstJ] at hc
    rw [hasSurrJ] at hs
    cases parse_items_char items hIH hc hs with
    | inl herr =>
      left; simp [json_strict_parse_with_dups, herr]
    | inr hok =>
      obtain ⟨d, hok⟩ := hok
      right
      refine ⟨d, ?_⟩
      simp [json_strict_parse_with_dups, hok, toPVal, dedupJ]
  · intro pairs hIH hc hs
    rw [hasConstJ] at hc
    rw [hasSurrJ] at hs
    cases parse_pairs_char pairs hIH hc hs with
    | inl herr =>
      left; simp [json_strict_parse_with_dups, herr]
    | inr hok =>
      obtain ⟨d, ps, hps, hkeys, hsel⟩ := hok
      have hknos : ∀ kv ∈ ps, kv.1.any isSurrogate = false := by
        intro kv hm
        have hmk : kv.1 ∈ pairs.map Prod.fst := by
          rw [← hkeys]; exact List.mem_map_of_mem _ hm
        obtain ⟨kt, hktm, hkeq⟩ := List.mem_map.mp hmk
        rw [← hkeq]
        exact hasSurrPairs_key pairs hs kt hktm
      obtain ⟨res, d2, hhook⟩ := pairs_hook_loop_total ps hknos [] false
      have hres := pairs_hook_loop_ok ps [] false res d2 hhook
      right
      refine ⟨d || d2, ?_⟩
      simp only [json_strict_parse_with_dups, hps, bind_ok_left, hhook]
      rw [show toPVal (dedupJ (JTok.jobj pairs)) = .pdict (toPValPairs (dedupPairs [] pairs)) from rfl]
      rw [hres]
      simp [hsel []]

theorem hasNullP_toPVal : ∀ u : JTok, hasNullP (toPVal u) = hasNullJ u := by
  refine jtok_induction _ ?_ ?_ ?_ ?_ ?_ ?_ ?_ ?_ <;>
    try (intros; rfl)
  · intro items hIH
    rw [show toPVal (JTok.jarr items) = .plist (toPValItems items) from rfl,
        show hasNullP (.plist (toPValItems items)) = hasNullPItems (toPValItems items) from rfl,
        show hasNullJ (JTok.jarr items) = hasNullItems items from rfl]
    induction items with
    | nil => rfl
    | cons t ts ih =>
      rw [toPValItems, hasNullPItems, hasNullItems, hIH t (by simp),
          ih (fun x hx => hIH x (by simp [hx]))]
  · intro pairs hIH
    rw [show toPVal (JTok.jobj pairs) = .pdict (toPValPairs pairs) from rfl,
        show hasNullP (.pdict (toPValPairs pairs)) = hasNullPPairs (toPValPairs pairs) from rfl,
        show hasNullJ (JTok.jobj pairs) = hasNullPairs pairs from rfl]
    induction pairs with
    | nil => rfl
    | cons kt rest ih =>
      obtain ⟨k, t⟩ := kt
      rw [toPValPairs, hasNullPPairs, hasNullPairs, hIH (k, t) (by simp),
          ih (fun x hx => hIH x (by simp [hx]))]

theorem hasSurrP_toPVal : ∀ u : JTok, hasSurrP (toPVal u) = hasSurrJ u := by
  refine jtok_induction _ ?_ ?_ ?_ ?_ ?_ ?_ ?_ ?_ <;>
    try (intros; rfl)
  · intro items hIH
    rw [show hasSurrP (toPVal (JTok.jarr items)) = hasSurrPItems (toPValItems items) from rfl,
        show hasSurrJ (JTok.jarr items) = hasSurrItems items from rfl]
    induction items with
    | nil => rfl
    | cons t ts ih =>
      rw [toPValItems, hasSurrPItems, hasSurrItems, hIH t (by simp),
          ih (fun x hx => hIH x (by simp [hx]))]
  · intro pairs hIH
    rw [show hasSurrP (toPVal (JTok.jobj pairs)) = hasSurrPPairs (toPValPairs pairs) from rfl,
        show hasSurrJ (JTok.jobj pairs) = hasSurrPairs pairs from rfl]
    induction pairs with
    | nil => rfl
    | cons kt rest ih =>
      obtain ⟨k, t⟩ := kt
      rw [toPValPairs, hasSurrPPairs, hasSurrPairs, hIH (k, t) (by simp),
          ih (fun x hx => hIH x (by simp [hx]))]

theorem pdepth_toPVal : ∀ u : JTok, pdepth (toPVal u) = jdepth u := by
  refine jtok_induction _ ?_ ?_ ?_ ?_ ?_ ?_ ?_ ?_ <;>
    try (intros; rfl)
  · intro items hIH
    rw [show pdepth (toPVal (JTok.jarr items)) = 1 + pdepthItems (toPValItems items) from rfl,
        show jdepth (JTok.jarr items) = 1 + jdepthItems items from rfl]
    have : pdepthItems (toPValItems items) = jdepthItems items := by
      induction items with
      | nil => rfl
      | cons t ts ih =>
        rw [toPValItems, pdepthItems, jdepthItems, hIH t (by simp),
            ih (fun x hx => hIH x (by simp [hx]))]
    rw [this]
  · intro pairs hIH
    rw [show pdepth (toPVal (JTok.jobj pairs)) = 1 + pdepthPairs (toPValPairs pairs) from rfl,
        show jdepth (JTok.jobj pairs) = 1 + jdepthPairs pairs from rfl]
    have : pdepthPairs (toPValPairs pairs) = jdepthPairs pairs := by
      induction pairs with
      | nil => rfl
      | cons kt rest ih =>
        obtain ⟨k, t⟩ := kt
        rw [toPValPairs, pdepthPairs, jdepthPairs, hIH (k, t) (by simp),
            ih (fun x hx => hIH x (by simp [hx]))]
    rw [this]

theorem hasSurrJ_dedup : ∀ t : JTok, hasSurrJ t = false → hasSurrJ (dedupJ t) = false := by
  refine jtok_induction _ (fun s hs => hs) (fun n hs => hs) (fun hs => hs) (fun b hs => hs)
    (fun hs => hs) (fun hs => hs) ?_ ?_
  · intro items hIH hs
    rw [show dedupJ (JTok.jarr items) = .jarr (dedupItems items) from rfl,
        show hasSurrJ (JTok.jarr (dedupItems items)) = hasSurrItems (dedupItems items) from rfl]
    rw [show hasSurrJ (JTok.jarr items) = hasSurrItems items from rfl] at hs
    induction items with
    | nil => rfl
    | cons t ts ih =>
      rw [hasSurrItems, Bool.or_eq_false_iff] at hs
      rw [dedupItems, hasSurrItems, hIH t (by simp) hs.1,
          ih (fun x hx => hIH x (by simp [hx])) hs.2]
      rfl
  · intro pairs hIH hs
    rw [show dedupJ (JTok.jobj pairs) = .jobj (dedupPairs [] pairs) from rfl,
        show hasSurrJ (JTok.jobj (dedupPairs [] pairs))
          = hasSurrPairs (dedupPairs [] pairs) from rfl]
    rw [show hasSurrJ (JTok.jobj pairs) = hasSurrPairs pairs from rfl] at hs
    have key : ∀ seen, hasSurrPairs (dedupPairs seen pairs) = false := by
      induction pairs with
      | nil => intro seen; rfl
      | cons kt rest ih =>
        obtain ⟨k, t⟩ := kt
        rw [hasSurrPairs] at hs
        simp only [Bool.or_eq_false_iff] at hs
        intro seen
        rw [dedupPairs]
        by_cases hcon : seen.contains k
        · rw [if_pos hcon]
          exact ih (fun x hx => hIH x (by simp [hx])) hs.2 seen
        · rw [if_neg hcon, hasSurrPairs]
          simp only [Bool.or_eq_false_iff]
          exact ⟨⟨hs.1.1, hIH (k, t) (by simp) hs.1.2⟩,
                 ih (fun x hx => hIH x (by simp [hx])) hs.2 (seen ++ [k])⟩
    exact key []

theorem jdepth_dedup : ∀ t : JTok, jdepth (dedupJ t) ≤ jdepth t := by
  refine jtok_induction _ (fun s => Nat.le_refl _) (fun n => Nat.le_refl _) (Nat.le_refl _)
    (fun b => Nat.le_refl _) (Nat.le_refl _) (Nat.le_refl _) ?_ ?_
  · intro items hIH
    rw [show dedupJ (JTok.jarr items) = .jarr (dedupItems items) from rfl,
        show jdepth (JTok.jarr (dedupItems items)) = 1 + jdepthItems (dedupItems items) from rfl,
        show jdepth (JTok.jarr items) = 1 + jdepthItems items from rfl]
    have : jdepthItems (dedupItems items) ≤ jdepthItems items := by
      induction items with
      | nil => exact Nat.le_refl _
      | cons t ts ih =>
        rw [dedupItems, jdepthItems, jdepthItems]
        have h1 := hIH t (by simp)
        have h2 := ih (fun x hx => hIH x (by simp [hx]))
        omega
    omega
  · intro pairs hIH
    rw [show dedupJ (JTok.jobj pairs) = .jobj (dedupPairs [] pairs) from rfl,
        show jdepth (JTok.jobj (dedupPairs [] pairs))
          = 1 + jdepthPairs (dedupPairs [] pairs) from rfl,
        show jdepth (JTok.jobj pairs) = 1 + jdepthPairs pairs from rfl]
    have key : ∀ seen, jdepthPairs (dedupPairs seen pairs) ≤ jdepthPairs pairs := by
      induction pairs with
      | nil => intro seen; exact Nat.le_refl _
      | cons kt rest ih =>
        obtain ⟨k, t⟩ := kt
        intro seen
        rw [dedupPairs, jdepthPairs]
        by_cases hcon : seen.contains k
        · rw [if_pos hcon]
          have := ih (fun x hx => hIH x (by simp [hx])) seen
          omega
        · rw [if_neg hcon, jdepthPairs]
          have h1 : jdepth (dedupJ t) ≤ jdepth t := hIH (k, t) (by simp)
          have h2 := ih (fun x hx => hIH x (by simp [hx])) (seen ++ [k])
          omega
    have := key []
    omega

theorem pdepth_pos_of_container (x : PVal) (h : isPContainer x = true) : 1 ≤ pdepth x := by
  cases x with
  | plist l => rw [pdepth]; omega
  | pdict l => rw [pdepth]; omega
  | pstr s => simp [isPContainer] at h
  | pint n => simp [isPContainer] at h
  | pbool b => simp [isPContainer] at h
  | pnull => simp [isPContainer] at h
  | pfloatSentinel => simp [isPContainer] at h

theorem pdepth_zero_of_scalar (x : PVal) (h : isPContainer x = false) : pdepth x = 0 := by
  cases x <;> first | rfl | simp [isPContainer] at h

theorem conv_pstr (s : List Nat) (d : Nat) :
    json_to_canon_value (.pstr s) d =
      if d > MAX_DEPTH then .error ERR_LIMIT_DEPTH
      else _ensure_no_surrogates s >>= fun _ => .ok (Value.vstr s) := rfl

theorem conv_pint (n : Int) (d : Nat) :
    json_to_canon_value (.pint n) d =
      if d > MAX_DEPTH then .error ERR_LIMIT_DEPTH else .ok (Value.vint n) := rfl

theorem conv_pbool (b : Bool) (d : Nat) :
    json_to_canon_value (.pbool b) d =
      if d > MAX_DEPTH then .error ERR_LIMIT_DEPTH else .ok (Value.vbool b) := rfl

theorem conv_pnull (d : Nat) :
    json_to_canon_value .pnull d =
      if d > MAX_DEPTH then .error ERR_LIMIT_DEPTH else .error ERR_TYPE := rfl

theorem conv_pfloat (d : Nat) :
    json_to_canon_value .pfloatSentinel d =
      if d > MAX_DEPTH then .error ERR_LIMIT_DEPTH else .error ERR_TYPE := rfl

theorem conv_plist (l : List PVal) (d : Nat) :
    json_to_canon_value (.plist l) d =
      if d > MAX_DEPTH then .error ERR_LIMIT_DEPTH
      else json_canon_items l d >>= fun vs => .ok (Value.vlist vs) := rfl

theorem conv_pdict (l : List (List Nat × PVal)) (d : Nat) :
    json_to_canon_value (.pdict l) d =
      if d > MAX_DEPTH then .error ERR_LIMIT_DEPTH
      else json_canon_entries l d >>= fun es => .ok (Value.vmap es) := rfl

/-- Property used in the conversion-error analysis: under the depth bound and
with no surrogates in reach, every failure of `json_to_canon_value` carries
`ERR_TYPE`. -/
def ConvErrProp (pv : PVal) : Prop :=
  hasSurrP pv = false → ∀ d, d ≤ 32 → d + pdepth pv ≤ 33 →
    ∀ e, json_to_canon_value pv d = .error e → e = ERR_TYPE

theorem conv_items_err (l : List PVal)
    (hIH : ∀ x ∈ l, ConvErrProp x) (hs : hasSurrPItems l = false) :
    ∀ d, d ≤ 32 → d + pdepthItems l ≤ 32 →
      ∀ e, json_canon_items l d = .error e → e = ERR_TYPE := by
  induction l with
  | nil => intro d _ _ e he; simp [json_canon_items] at he
  | cons x rest ih =>
    intro d hd hdep e he
    rw [hasSurrPItems] at hs
    simp only [Bool.or_eq_false_iff] at hs
    rw [pdepthItems] at hdep
    have hx_le := Nat.le_max_left (pdepth x) (pdepthItems rest)
    have hr_le := Nat.le_max_right (pdepth x) (pdepthItems rest)
    have hcp : ConvErrProp x := hIH x (by simp)
    rw [json_canon_items] at he
    by_cases hcont : isPContainer x
    · rw [if_pos hcont] at he
      cases hcx : json_to_canon_value x (d + 1) with
      | error e' =>
        rw [hcx] at he
        simp only [bind_error_left, Except.error.injEq] at he
        subst he
        have hpos := pdepth_pos_of_container x hcont
        exact hcp hs.1 (d + 1) (by omega) (by omega) e' hcx
      | ok vx =>
        rw [hcx] at he
        simp only [bind_ok_left] at he
        cases hcr : json_canon_items rest d with
        | error e' =>
          rw [hcr] at he
          simp only [bind_error_left, Except.error.injEq] at he
          subst he
          exact ih (fun y hy => hIH y (by simp [hy])) hs.2 d hd (by omega) e' hcr
        | ok vr =>
          rw [hcr] at he
          simp at he
    · rw [if_neg hcont] at he
      cases hcx : json_to_canon_value x d with
      | error e' =>
        rw [hcx] at he
        simp only [bind_error_left, Except.error.injEq] at he
        subst he
        have hz := pdepth_zero_of_scalar x (by simpa using hcont)
        exact hcp hs.1 d hd (by omega) e' hcx
      | ok vx =>
        rw [hcx] at he
        simp only [bind_ok_left] at he
        cases hcr : json_canon_items rest d with
        | error e' =>
          rw [hcr] at he
          simp only [bind_error_left, Except.error.injEq] at he
          subst he
          exact ih (fun y hy => hIH y (by simp [hy])) hs.2 d hd (by omega) e' hcr
        | ok vr =>
          rw [hcr] at he
          simp at he

theorem conv_entries_err (l : List (List Nat × PVal))
    (hIH : ∀ kv ∈ l, ConvErrProp kv.2) (hs : hasSurrPPairs l = false) :
    ∀ d, d ≤ 32 → d + pdepthPairs l ≤ 32 →
      ∀ e, json_canon_entries l d = .error e → e = ERR_TYPE := by
  induction l with
  | nil => intro d _ _ e he; simp [json_canon_entries] at he
  | cons kv rest ih =>
    obtain ⟨k, x⟩ := kv
    intro d hd hdep e he
    rw [hasSurrPPairs] at hs
    simp only [Bool.or_eq_false_iff] at hs
    rw [pdepthPairs] at hdep
    have hx_le := Nat.le_max_left (pdepth x) (pdepthPairs rest)
    have hr_le := Nat.le_max_right (pdepth x) (pdepthPairs rest)
    have hcp : ConvErrProp x := hIH (k, x) (by simp)
    rw [json_canon_entries] at he
    rw [show _ensure_no_surrogates k = .ok () from by
      simp [_ensure_no_surrogates, hs.1.1]] at he
    simp only [bind_ok_left] at he
    by_cases hcont : isPContainer x
    · rw [if_pos hcont] at he
      cases hcx : json_to_canon_value x (d + 1) with
      | error e' =>
        rw [hcx] at he
        simp only [bind_error_left, Except.error.injEq] at he
        subst he
        have hpos := pdepth_pos_of_container x hcont
        exact hcp hs.1.2 (d + 1) (by omega) (by omega) e' hcx
      | ok vx =>
        rw [hcx] at he
        simp only [bind_ok_left] at he
        cases hcr : json_canon_entries rest d with
        | error e' =>
          rw [hcr] at he
          simp only [bind_error_left, Except.error.injEq] at he
          subst he
          exact ih (fun y hy => hIH y (by simp [hy])) hs.2 d hd (by omega) e' hcr
        | ok vr =>
          rw [hcr] at he
          simp at he
    · rw [if_neg hcont] at he
      cases hcx : json_to_canon_value x d with
      | error e' =>
        rw [hcx] at he
        simp only [bind_error_left, Except.error.injEq] at he
        subst he
        have hz := pdepth_zero_of_scalar x (by simpa using hcont)
        exact hcp hs.1.2 d hd (by omega) e' hcx
      | ok vx =>
        rw [hcx] at he
        simp only [bind_ok_left] at he
        cases hcr : json_canon_entries rest d with
        | error e' =>
          rw [hcr] at he
          simp only [bind_error_left, Except.error.injEq] at he
          subst he
          exact ih (fun y hy => hIH y (by simp [hy])) hs.2 d hd (by omega) e' hcr
        | ok vr =>
          rw [hcr] at he
          simp at he

theorem conv_err_type : ∀ pv : PVal, ConvErrProp pv := by
  refine pval_induction _ ?_ ?_ ?_ ?_ ?_ ?_ ?_
  · intro s hsur d hd _ e he
    rw [conv_pstr, if_neg (show ¬(d > MAX_DEPTH) from by simp only [MAX_DEPTH]; omega)] at he
    rw [show _ensure_no_surrogates s = .ok () from by
      simp [_ensure_no_surrogates]
      simpa [hasSurrP] using hsur] at he
    simp at he
  · intro n _ d hd _ e he
    rw [conv_pint, if_neg (show ¬(d > MAX_DEPTH) from by simp only [MAX_DEPTH]; omega)] at he
    simp at he
  · intro b _ d hd _ e he
    rw [conv_pbool, if_neg (show ¬(d > MAX_DEPTH) from by simp only [MAX_DEPTH]; omega)] at he
    simp at he
  · intro _ d hd _ e he
    rw [conv_pnull, if_neg (show ¬(d > MAX_DEPTH) from by simp only [MAX_DEPTH]; omega)] at he
    simp at he
    exact he.symm
  · intro _ d hd _ e he
    rw [conv_pfloat, if_neg (show ¬(d > MAX_DEPTH) from by simp only [MAX_DEPTH]; omega)] at he
    simp at he
    exact he.symm
  · intro items hIH hsur d hd hdep e he
    rw [conv_plist, if_neg (show ¬(d > MAX_DEPTH) from by simp only [MAX_DEPTH]; omega)] at he
    cases hci : json_canon_items items d with
    | error e' =>
      rw [hci] at he
      simp only [bind_error_left, Except.error.injEq] at he
      subst he
      refine conv_items_err items hIH (by simpa [hasSurrP] using hsur) d hd ?_ e' hci
      rw [show pdepth (.plist items) = 1 + pdepthItems items from rfl] at hdep
      omega
    | ok vs =>
      rw [hci] at he
      simp at he
  · intro pairs hIH hsur d hd hdep e he
    rw [conv_pdict, if_neg (show ¬(d > MAX_DEPTH) from by simp only [MAX_DEPTH]; omega)] at he
    cases hci : json_canon_entries pairs d with
    | error e' =>
      rw [hci] at he
      simp only [bind_error_left, Except.error.injEq] at he
      subst he
      refine conv_entries_err pairs hIH (by simpa [hasSurrP] using hsur) d hd ?_ e' hci
      rw [show pdepth (.pdict pairs) = 1 + pdepthPairs pairs from rfl] at hdep
      omega
    | ok vs =>
      rw [hci] at he
      simp at he

theorem conv_items_null (l : List PVal)
    (hIH : ∀ x ∈ l, hasNullP x = true → ∀ d r, json_to_canon_value x d ≠ .ok r)
    (hn : hasNullPItems l = true) :
    ∀ d vs, json_canon_items l d ≠ .ok vs := by
  induction l with
  | nil => simp [hasNullPItems] at hn
  | cons x rest ih =>
    intro d vs hok
    rw [json_canon_items] at hok
    cases hcx : json_to_canon_value x (if isPContainer x then d + 1 else d) with
    | error e => rw [hcx] at hok; simp at hok
    | ok vx =>
      rw [hcx] at hok
      simp only [bind_ok_left] at hok
      cases hcr : json_canon_items rest d with
      | error e => rw [hcr] at hok; simp at hok
      | ok vr =>
        rw [hasNullPItems] at hn
        cases Bool.or_eq_true_iff.mp hn with
        | inl h => exact hIH x (by simp) h _ _ hcx
        | inr h => exact ih (fun y hy => hIH y (by simp [hy])) h d vr hcr

theorem conv_entries_null (l : List (List Nat × PVal))
    (hIH : ∀ kv ∈ l, hasNullP kv.2 = true → ∀ d r, json_to_canon_value kv.2 d ≠ .ok r)
    (hn : hasNullPPairs l = true) :
    ∀ d es, json_canon_entries l d ≠ .ok es := by
  induction l with
  | nil => simp [hasNullPPairs] at hn
  | cons kv rest ih =>
    obtain ⟨k, x⟩ := kv
    intro d es hok
    rw [json_canon_entries] at hok
    cases hsk : _ensure_no_surrogates k with
    | error e => rw [hsk] at hok; simp at hok
    | ok u =>
      rw [hsk] at hok
      simp only [bind_ok_left] at hok
      cases hcx : json_to_canon_value x (if isPContainer x then d + 1 else d) with
      | error e => rw [hcx] at hok; simp at hok
      | ok vx =>
        rw [hcx] at hok
        simp only [bind_ok_left] at hok
        cases hcr : json_canon_entries rest d with
        | error e => rw [hcr] at hok; simp at hok
        | ok vr =>
          rw [hasNullPPairs] at hn
          cases Bool.or_eq_true_iff.mp hn with
          | inl h => exact hIH (k, x) (by simp) h _ _ hcx
          | inr h => exact ih (fun y hy => hIH y (by simp [hy])) h d vr hcr

theorem conv_null_no_ok :
    ∀ pv : PVal, hasNullP pv = true → ∀ d r, json_to_canon_value pv d ≠ .ok r := by
  refine pval_induction _ ?_ ?_ ?_ ?_ ?_ ?_ ?_
  · intro s hn; simp [hasNullP] at hn
  · intro n hn; simp [hasNullP] at hn
  · intro b hn; simp [hasNullP] at hn
  · intro _ d r h
    rw [conv_pnull] at h
    split at h <;> simp at h
  · intro hn; simp [hasNullP] at hn
  · intro items hIH hn d r hok
    rw [conv_plist] at hok
    split at hok
    · simp at hok
    · cases hci : json_canon_items items d with
      | error e => rw [hci] at hok; simp at hok
      | ok vs =>
        rw [hasNullP] at hn
        exact conv_items_null items hIH hn d vs hci
  · intro pairs hIH hn d r hok
    rw [conv_pdict] at hok
    split at hok
    · simp at hok
    · cases hci : json_canon_entries pairs d with
      | error e => rw [hci] at hok; simp at hok
      | ok es =>
        rw [hasNullP] at hn
        exact conv_entries_null pairs hIH hn d es hci

/-- C3 (amended): for every JSON input whose only candidate violations are
duplicate object keys and nulls — no extension constants, no surrogates,
container nesting within 32 — if it has a duplicate key and a null value at a
position that survives first-occurrence deduplication, `mid_full_json`
reports `ERR_TYPE` rather than `ERR_DUP_KEY`: duplicate-key detection is
deferred and the conversion's `ERR_TYPE` fires first. -/
theorem C3_retained_null_err_type (t : JTok)
    (hconst : hasConstJ t = false) (hsurr : hasSurrJ t = false)
    (hdepth : jdepth t ≤ 32) (hdup : hasDupKey t = true)
    (hnull : hasNullJ (dedupJ t) = true) :
    mid_full_json t = .error ERR_TYPE := by
  cases parse_characterization t hconst hsurr with
  | inl herr => simp [mid_full_json, herr]
  | inr hok =>
    obtain ⟨d, hok⟩ := hok
    have hnp : hasNullP (toPVal (dedupJ t)) = true := by
      rw [hasNullP_toPVal]; exact hnull
    have hsp : hasSurrP (toPVal (dedupJ t)) = false := by
      rw [hasSurrP_toPVal]; exact hasSurrJ_dedup t hsurr
    have hdp : pdepth (toPVal (dedupJ t)) ≤ 32 := by
      rw [pdepth_toPVal]; exact le_trans (jdepth_dedup t) hdepth
    cases hcv : json_to_canon_value (toPVal (dedupJ t)) 1 with
    | ok r => exact absurd hcv (conv_null_no_ok _ hnp 1 r)
    | error e =>
      have he : e = ERR_TYPE := conv_err_type _ hsp 1 (by omega) (by omega) e hcv
      subst he
      simp [mid_full_json, hok, hcv]

/-- C3 (witness): `{"a": null, "a": 1}` — the null survives deduplication. -/
theorem C3_retained_null_err_type_witness :
    mid_full_json (JTok.jobj [([97], .jnull), ([97], .jint 1)]) = .error ERR_TYPE :=
  C3_retained_null_err_type _ rfl rfl (by decide) rfl rfl


/-! ## UTF-8 round trip -/

/-- A scalar code point: in range and not a surrogate. -/
def ScalarCp (c : Nat) : Prop := c < 0x110000 ∧ ¬(0xD800 ≤ c ∧ c ≤ 0xDFFF)


theorem utf8Dec1 (b : Nat) :
    utf8Decode [b] =
      if b < 0x80 then some [b]
      else if b < 0xC2 then none
      else if b < 0xE0 then none
      else if b < 0xF0 then none
      else if b < 0xF5 then none
      else none := rfl

theorem utf8Dec2 (b b1 : Nat) :
    utf8Decode [b, b1] =
      if b < 0x80 then (utf8Decode [b1]).map (b :: ·)
      else if b < 0xC2 then none
      else if b < 0xE0 then
        if 0x80 ≤ b1 ∧ b1 < 0xC0 then some [(b - 0xC0) * 64 + (b1 - 0x80)] else none
      else if b < 0xF0 then none
      else if b < 0xF5 then none
      else none := rfl

theorem utf8Dec3 (b b1 b2 : Nat) :
    utf8Decode [b, b1, b2] =
      if b < 0x80 then (utf8Decode [b1, b2]).map (b :: ·)
      else if b < 0xC2 then none
      else if b < 0xE0 then
        if 0x80 ≤ b1 ∧ b1 < 0xC0 then
          (utf8Decode [b2]).map (((b - 0xC0) * 64 + (b1 - 0x80)) :: ·)
        else none
      else if b < 0xF0 then
        if 0x80 ≤ b1 ∧ b1 < 0xC0 ∧ 0x80 ≤ b2 ∧ b2 < 0xC0 then
          let c := (b - 0xE0) * 4096 + (b1 - 0x80) * 64 + (b2 - 0x80)
          if c < 0x800 ∨ (0xD800 ≤ c ∧ c ≤ 0xDFFF) then none else some [c]
        else none
      else if b < 0xF5 then none
      else none := rfl

theorem utf8Dec4 (b b1 b2 b3 : Nat) (r : List Nat) :
    utf8Decode (b :: b1 :: b2 :: b3 :: r) =
      if b < 0x80 then (utf8Decode (b1 :: b2 :: b3 :: r)).map (b :: ·)
      else if b < 0xC2 then none
      else if b < 0xE0 then
        if 0x80 ≤ b1 ∧ b1 < 0xC0 then
          (utf8Decode (b2 :: b3 :: r)).map (((b - 0xC0) * 64 + (b1 - 0x80)) :: ·)
        else none
      else if b < 0xF0 then
        if 0x80 ≤ b1 ∧ b1 < 0xC0 ∧ 0x80 ≤ b2 ∧ b2 < 0xC0 then
          let c := (b - 0xE0) * 4096 + (b1 - 0x80) * 64 + (b2 - 0x80)
          if c < 0x800 ∨ (0xD800 ≤ c ∧ c ≤ 0xDFFF) then none
          else (utf8Decode (b3 :: r)).map (c :: ·)
        else none
      else if b < 0xF5 then
        if 0x80 ≤ b1 ∧ b1 < 0xC0 ∧ 0x80 ≤ b2 ∧ b2 < 0xC0 ∧ 0x80 ≤ b3 ∧ b3 < 0xC0 then
          let c := (b - 0xF0) * 262144 + (b1 - 0x80) * 4096 + (b2 - 0x80) * 64 + (b3 - 0x80)
          if c < 0x10000 ∨ 0x10FFFF < c then none
          else (utf8Decode r).map (c :: ·)
        else none
      else none := rfl

theorem utf8Decode_b1 (b : Nat) (hb : b < 0x80) (r : List Nat) :
    utf8Decode (b :: r) = (utf8Decode r).map (b :: ·) := by
  cases r with
  | nil => rw [utf8Dec1, if_pos hb]; rfl
  | cons x xs =>
    cases xs with
    | nil => rw [utf8Dec2, if_pos hb]
    | cons y ys =>
      cases ys with
      | nil => rw [utf8Dec3, if_pos hb]
      | cons z zs => rw [utf8Dec4, if_pos hb]

theorem utf8Decode_b2 (b b1 : Nat) (hb1 : 0xC2 ≤ b) (hb2 : b < 0xE0)
    (hc1 : 0x80 ≤ b1) (hc2 : b1 < 0xC0) (r : List Nat) :
    utf8Decode (b :: b1 :: r) =
      (utf8Decode r).map (((b - 0xC0) * 64 + (b1 - 0x80)) :: ·) := by
  cases r with
  | nil =>
    rw [utf8Dec2, if_neg (by omega), if_neg (by omega), if_pos hb2, if_pos ⟨hc1, hc2⟩]
    rfl
  | cons x xs =>
    cases xs with
    | nil =>
      rw [utf8Dec3, if_neg (by omega), if_neg (by omega), if_pos hb2, if_pos ⟨hc1, hc2⟩]
    | cons y ys =>
      rw [utf8Dec4, if_neg (by omega), if_neg (by omega), if_pos hb2, if_pos ⟨hc1, hc2⟩]

theorem utf8Decode_b3 (b b1 b2 : Nat) (hb1 : 0xE0 ≤ b) (hb2 : b < 0xF0)
    (hc1 : 0x80 ≤ b1) (hc2 : b1 < 0xC0) (hc3 : 0x80 ≤ b2) (hc4 : b2 < 0xC0) (r : List Nat) :
    utf8Decode (b :: b1 :: b2 :: r) =
      (if (b - 0xE0) * 4096 + (b1 - 0x80) * 64 + (b2 - 0x80) < 0x800 ∨
          (0xD800 ≤ (b - 0xE0) * 4096 + (b1 - 0x80) * 64 + (b2 - 0x80) ∧
           (b - 0xE0) * 4096 + (b1 - 0x80) * 64 + (b2 - 0x80) ≤ 0xDFFF) then none
       else (utf8Decode r).map (((b - 0xE0) * 4096 + (b1 - 0x80) * 64 + (b2 - 0x80)) :: ·)) := by
  cases r with
  | nil =>
    rw [utf8Dec3, if_neg (by omega), if_neg (by omega), if_neg (by omega), if_pos hb2,
        if_pos ⟨hc1, hc2, hc3, hc4⟩]
    rfl
  | cons x xs =>
    rw [utf8Dec4, if_neg (by omega), if_neg (by omega), if_neg (by omega), if_pos hb2,
        if_pos ⟨hc1, hc2, hc3, hc4⟩]

theorem utf8Decode_b4 (b b1 b2 b3 : Nat) (hb1 : 0xF0 ≤ b) (hb2 : b < 0xF5)
    (hc1 : 0x80 ≤ b1) (hc2 : b1 < 0xC0) (hc3 : 0x80 ≤ b2) (hc4 : b2 < 0xC0)
    (hc5 : 0x80 ≤ b3) (hc6 : b3 < 0xC0) (r : List Nat) :
    utf8Decode (b :: b1 :: b2 :: b3 :: r) =
      (if (b - 0xF0) * 262144 + (b1 - 0x80) * 4096 + (b2 - 0x80) * 64 + (b3 - 0x80) < 0x10000 ∨
          0x10FFFF < (b - 0xF0) * 262144 + (b1 - 0x80) * 4096 + (b2 - 0x80) * 64 + (b3 - 0x80)
       then none
       else (utf8Decode r).map
         (((b - 0xF0) * 262144 + (b1 - 0x80) * 4096 + (b2 - 0x80) * 64 + (b3 - 0x80)) :: ·)) := by
  rw [utf8Dec4, if_neg (by omega), if_neg (by omega), if_neg (by omega), if_neg (by omega),
      if_pos hb2, if_pos ⟨hc1, hc2, hc3, hc4, hc5, hc6⟩]

theorem utf8Decode_ge_F5 (b : Nat) (hb : 0xF5 ≤ b) (r : List Nat) :
    utf8Decode (b :: r) = none := by
  cases r with
  | nil =>
    rw [utf8Dec1, if_neg (by omega), if_neg (by omega), if_neg (by omega), if_neg (by omega),
        if_neg (by omega)]
  | cons x xs =>
    cases xs with
    | nil =>
      rw [utf8Dec2, if_neg (by omega), if_neg (by omega), if_neg (by omega), if_neg (by omega),
          if_neg (by omega)]
    | cons y ys =>
      cases ys with
      | nil =>
        rw [utf8Dec3, if_neg (by omega), if_neg (by omega), if_neg (by omega), if_neg (by omega),
            if_neg (by omega)]
      | cons z zs =>
        rw [utf8Dec4, if_neg (by omega), if_neg (by omega), if_neg (by omega), if_neg (by omega),
            if_neg (by omega)]

theorem utf8Decode_enc_scalar (c : Nat) (hs : ScalarCp c) (rest : List Nat) :
    utf8Decode (utf8EncCp c ++ rest) = (utf8Decode rest).map (c :: ·) := by
  obtain ⟨hlt, hns⟩ := hs
  rw [utf8EncCp]
  by_cases h1 : c < 0x80
  · rw [if_pos h1, List.cons_append, List.nil_append, utf8Decode_b1 c h1]
  · rw [if_neg h1]
    by_cases h2 : c < 0x800
    · rw [if_pos h2, List.cons_append, List.cons_append, List.nil_append,
          utf8Decode_b2 _ _ (by omega) (by omega) (by omega) (by omega)]
      have hcp : (0xC0 + c / 64 - 0xC0) * 64 + (0x80 + c % 64 - 0x80) = c := by omega
      rw [hcp]
    · rw [if_neg h2]
      by_cases h3 : c < 0x10000
      · rw [if_pos h3, List.cons_append, List.cons_append, List.cons_append, List.nil_append,
            utf8Decode_b3 _ _ _ (by omega) (by omega) (by omega) (by omega) (by omega) (by omega)]
        have hcp : (0xE0 + c / 4096 - 0xE0) * 4096 + (0x80 + c / 64 % 64 - 0x80) * 64 +
            (0x80 + c % 64 - 0x80) = c := by omega
        rw [hcp, if_neg (by omega)]
      · rw [if_neg h3, List.cons_append, List.cons_append, List.cons_append, List.cons_append,
            List.nil_append,
            utf8Decode_b4 _ _ _ _ (by omega) (by omega) (by omega) (by omega) (by omega)
              (by omega) (by omega) (by omega)]
        have hcp : (0xF0 + c / 262144 - 0xF0) * 262144 + (0x80 + c / 4096 % 64 - 0x80) * 4096 +
            (0x80 + c / 64 % 64 - 0x80) * 64 + (0x80 + c % 64 - 0x80) = c := by omega
        rw [hcp, if_neg (by omega)]

theorem utf8Decode_enc_bad (c : Nat) (hs : ¬ScalarCp c) (rest : List Nat) :
    utf8Decode (utf8EncCp c ++ rest) = none := by
  rw [ScalarCp] at hs
  by_cases hsur : 0xD800 ≤ c ∧ c ≤ 0xDFFF
  · rw [utf8EncCp, if_neg (by omega), if_neg (by omega), if_pos (by omega)]
    rw [List.cons_append, List.cons_append, List.cons_append, List.nil_append,
        utf8Decode_b3 _ _ _ (by omega) (by omega) (by omega) (by omega) (by omega) (by omega)]
    have hcp : (0xE0 + c / 4096 - 0xE0) * 4096 + (0x80 + c / 64 % 64 - 0x80) * 64 +
        (0x80 + c % 64 - 0x80) = c := by omega
    rw [hcp, if_pos (by omega)]
  · have hge : 0x110000 ≤ c := by
      rcases Nat.lt_or_ge c 0x110000 with h | h
      · exact absurd ⟨h, hsur⟩ hs
      · exact h
    rw [utf8EncCp, if_neg (by omega), if_neg (by omega), if_neg (by omega)]
    rw [List.cons_append, List.cons_append, List.cons_append, List.cons_append, List.nil_append]
    by_cases h4 : c < 0x140000
    · rw [utf8Decode_b4 _ _ _ _ (by omega) (by omega) (by omega) (by omega) (by omega)
          (by omega) (by omega) (by omega)]
      have hcp : (0xF0 + c / 262144 - 0xF0) * 262144 + (0x80 + c / 4096 % 64 - 0x80) * 4096 +
          (0x80 + c / 64 % 64 - 0x80) * 64 + (0x80 + c % 64 - 0x80) = c := by omega
      rw [hcp, if_pos (by omega)]
    · rw [utf8Decode_ge_F5 _ (by omega)]

theorem utf8Decode_strEncode (s : List Nat) :
    ∀ t, utf8Decode (strEncode s) = some t → t = s := by
  induction s with
  | nil =>
    intro t h
    have h2 : some ([] : List Nat) = some t := h
    exact ((Option.some.injEq _ _).mp h2).symm
  | cons c s' ih =>
    intro t h
    rw [show strEncode (c :: s') = utf8EncCp c ++ strEncode s' from rfl] at h
    by_cases hs : ScalarCp c
    · rw [utf8Decode_enc_scalar c hs] at h
      cases hd : utf8Decode (strEncode s') with
      | none => rw [hd] at h; exact absurd h (by simp)
      | some t' =>
        rw [hd] at h
        have h2 : some (c :: t') = some t := h
        have h3 := (Option.some.injEq _ _).mp h2
        rw [← h3, ih t' hd]
    · rw [utf8Decode_enc_bad c hs] at h
      exact absurd h (by simp)

/-! ## Order theory of `_key_cmp` -/

theorem key_cmp_eq_zero_iff : ∀ a b : List Nat, _key_cmp a b = 0 ↔ a = b := by
  intro a
  induction a with
  | nil =>
    intro b
    cases b with
    | nil => simp [_key_cmp]
    | cons y bs => simp [_key_cmp]
  | cons x as ih =>
    intro b
    cases b with
    | nil => simp [_key_cmp]
    | cons y bs =>
      rw [_key_cmp]
      by_cases hxy : x = y
      · subst hxy
        rw [if_neg (by simp)]
        rw [ih bs]
        simp
      · rw [if_pos (by exact hxy)]
        constructor
        · intro h
          by_cases hlt : x < y <;> simp [hlt] at h
        · intro h
          injection h with h1 h2
          exact absurd h1 hxy

theorem key_cmp_swap : ∀ a b : List Nat, _key_cmp a b = -_key_cmp b a := by
  intro a
  induction a with
  | nil =>
    intro b
    cases b with
    | nil => rfl
    | cons y bs => rfl
  | cons x as ih =>
    intro b
    cases b with
    | nil => rfl
    | cons y bs =>
      rw [_key_cmp, _key_cmp]
      by_cases hxy : x = y
      · subst hxy
        simp only [ne_eq, not_true_eq_false, if_false]
        exact ih bs
      · rw [if_pos (by exact hxy), if_pos (fun h => hxy h.symm)]
        rcases Nat.lt_trichotomy x y with h | h | h
        · rw [if_pos h, if_neg (by omega)]
        · exact absurd h hxy
        · rw [if_neg (by omega), if_pos h]
          decide

theorem key_cmp_trans : ∀ a b c : List Nat,
    _key_cmp a b ≤ 0 → _key_cmp b c ≤ 0 → _key_cmp a c ≤ 0 := by
  intro a
  induction a with
  | nil =>
    intro b c _ _
    cases c with
    | nil => simp [_key_cmp]
    | cons z cs => simp [_key_cmp]
  | cons x as ih =>
    intro b c h1 h2
    cases b with
    | nil => simp [_key_cmp] at h1
    | cons y bs =>
      cases c with
      | nil => simp [_key_cmp] at h2
      | cons z cs =>
        rw [_key_cmp] at h1 h2 ⊢
        by_cases hxy : x = y
        · subst hxy
          simp only [ne_eq, not_true_eq_false, if_false] at h1
          by_cases hyz : x = z
          · subst hyz
            simp only [ne_eq, not_true_eq_false, if_false] at h2 ⊢
            exact ih bs cs h1 h2
          · rw [if_pos (by exact hyz)] at h2 ⊢
            exact h2
        · rw [if_pos (by exact hxy)] at h1
          by_cases hlt : x < y
          · rw [if_pos hlt] at h1
            by_cases hyz : y = z
            · subst hyz
              rw [if_pos (by exact hxy), if_pos hlt]
              omega
            · rw [if_pos (by exact hyz)] at h2
              by_cases hlt2 : y < z
              · rw [if_pos hlt2] at h2
                rw [if_pos (by omega : x ≠ z), if_pos (by omega)]
                omega
              · rw [if_neg hlt2] at h2
                omega
          · rw [if_neg hlt] at h1
            omega

/-- Strict order on map items (byte keys). -/
def entryLt (a b : List Nat × Value) : Prop := _key_cmp a.1 b.1 < 0

instance : DecidableRel entryLt := fun _ _ => inferInstanceAs (Decidable (_ < _))

instance : IsTotal (List Nat × Value) entryLe :=
  ⟨fun a b => by
    rw [entryLe, entryLe]
    have := key_cmp_swap a.1 b.1
    omega⟩

instance : IsTrans (List Nat × Value) entryLe :=
  ⟨fun a b c h1 h2 => key_cmp_trans a.1 b.1 c.1 h1 h2⟩

instance : IsAntisymm (List Nat × Value) entryLt :=
  ⟨fun a b h1 h2 => by
    rw [entryLt] at h1 h2
    have := key_cmp_swap a.1 b.1
    omega⟩

theorem sorted_lt_of_sorted_le_nodup (l : List (List Nat × Value))
    (hs : List.Sorted entryLe l) (hnd : (l.map Prod.fst).Nodup) :
    List.Sorted entryLt l := by
  have hpw : l.Pairwise (fun a b => a.1 ≠ b.1) := List.pairwise_map.mp hnd
  have := hs.and hpw
  exact this.imp (fun h => by
    rw [entryLt]
    rw [entryLe] at h
    have hne : ¬ _key_cmp _ _ = 0 := fun hz => h.2 ((key_cmp_eq_zero_iff _ _).mp hz)
    omega)

theorem insertionSort_eq_of_perm (l₁ l₂ : List (List Nat × Value))
    (hperm : l₁.Perm l₂) (hnd : (l₁.map Prod.fst).Nodup) :
    List.insertionSort entryLe l₁ = List.insertionSort entryLe l₂ := by
  have hp1 := List.perm_insertionSort entryLe l₁
  have hp2 := List.perm_insertionSort entryLe l₂
  have hnd1 : ((List.insertionSort entryLe l₁).map Prod.fst).Nodup :=
    ((hp1.map Prod.fst).nodup_iff).mpr hnd
  have hnd2 : ((List.insertionSort entryLe l₂).map Prod.fst).Nodup :=
    ((hp2.map Prod.fst).nodup_iff).mpr ((hperm.map Prod.fst).nodup_iff.mp hnd)
  exact List.eq_of_perm_of_sorted
    (hp1.trans (hperm.trans hp2.symm))
    (sorted_lt_of_sorted_le_nodup _ (List.sorted_insertionSort entryLe l₁) hnd1)
    (sorted_lt_of_sorted_le_nodup _ (List.sorted_insertionSort entryLe l₂) hnd2)

/-! ## Key-validation and collection lemmas -/

theorem validate_cases (b : List Nat) :
    validate_utf8_scalar b = .ok () ∨ validate_utf8_scalar b = .error ERR_UTF8 := by
  cases hu : utf8Decode b with
  | none => right; simp [validate_utf8_scalar, hu]
  | some cps =>
    by_cases h : cps.any isSurrogate
    · right; simp [validate_utf8_scalar, hu, h]
    · left; simp [validate_utf8_scalar, hu, h]

theorem decode_of_validate (s : List Nat)
    (h : validate_utf8_scalar (strEncode s) = .ok ()) :
    utf8Decode (strEncode s) = some s := by
  cases hu : utf8Decode (strEncode s) with
  | none => simp [validate_utf8_scalar, hu] at h
  | some cps => rw [utf8Decode_strEncode s cps hu]

theorem strEncode_inj_valid (x y : List Nat)
    (hx : validate_utf8_scalar (strEncode x) = .ok ())
    (he : strEncode x = strEncode y) : x = y := by
  have hd := decode_of_validate x hx
  rw [he] at hd
  exact utf8Decode_strEncode y x hd

theorem collect_map_items_ok (l : List (List Nat × Value))
    (h : ∀ kv ∈ l, validate_utf8_scalar (strEncode kv.1) = .ok ()) :
    collect_map_items l = .ok (l.map fun kv => (strEncode kv.1, kv.2)) := by
  induction l with
  | nil => rfl
  | cons kv rest ih =>
    obtain ⟨k, v⟩ := kv
    have hk := h (k, v) (by simp)
    simp [collect_map_items, hk, ih (fun kv hm => h kv (List.mem_cons_of_mem _ hm))]

theorem collect_map_items_err (l : List (List Nat × Value))
    (h : ¬ ∀ kv ∈ l, validate_utf8_scalar (strEncode kv.1) = .ok ()) :
    collect_map_items l = .error ERR_UTF8 := by
  induction l with
  | nil => exact absurd (by simp) h
  | cons kv rest ih =>
    obtain ⟨k, v⟩ := kv
    rcases validate_cases (strEncode k) with hk | hk
    · have hr : ¬ ∀ kv ∈ rest, validate_utf8_scalar (strEncode kv.1) = .ok () := by
        intro hall
        apply h
        intro kv hm
        rcases List.mem_cons.mp hm with he | hm'
        · rw [he]; exact hk
        · exact hall kv hm'
      simp [collect_map_items, hk, ih hr]
    · simp [collect_map_items, hk]

/-- Definitional unfolding of the `dict` branch of `mcf_encode_value`. -/
theorem mcf_encode_vmap (f : Nat) (es : List (List Nat × Value)) (d : Nat) :
    mcf_encode_value (f + 1) (vmap es) d =
      if d + 1 > MAX_DEPTH then .error ERR_LIMIT_DEPTH
      else if es.length > MAX_MAP_ENTRIES then .error ERR_LIMIT_SIZE
      else collect_map_items es >>= fun items =>
        _ensure_sorted_unique ((List.insertionSort entryLe items).map Prod.fst) >>= fun _ =>
        _u32be (List.insertionSort entryLe items).length >>= fun lb =>
        encodeEntriesAux (mcf_encode_value f) (List.insertionSort entryLe items) d >>= fun body =>
        .ok (TAG_MAP :: lb ++ body) := rfl

theorem encode_map_perm (es es' : List (List Nat × Value))
    (hperm : es.Perm es') (hnd : (es.map Prod.fst).Nodup) (f d : Nat) :
    mcf_encode_value (f + 1) (vmap es) d = mcf_encode_value (f + 1) (vmap es') d := by
  rw [mcf_encode_vmap, mcf_encode_vmap, hperm.length_eq]
  by_cases hdep : d + 1 > MAX_DEPTH
  · rw [if_pos hdep, if_pos hdep]
  rw [if_neg hdep, if_neg hdep]
  by_cases hlen : es'.length > MAX_MAP_ENTRIES
  · rw [if_pos hlen, if_pos hlen]
  rw [if_neg hlen, if_neg hlen]
  by_cases hval : ∀ kv ∈ es, validate_utf8_scalar (strEncode kv.1) = .ok ()
  · have hval' : ∀ kv ∈ es', validate_utf8_scalar (strEncode kv.1) = .ok () :=
      fun kv hm => hval kv (hperm.mem_iff.mpr hm)
    rw [collect_map_items_ok es hval, collect_map_items_ok es' hval']
    have hsort : List.insertionSort entryLe (es.map fun kv => (strEncode kv.1, kv.2))
               = List.insertionSort entryLe (es'.map fun kv => (strEncode kv.1, kv.2)) := by
      apply insertionSort_eq_of_perm
      · exact hperm.map _
      · have hmm2 : ((es.map fun kv => (strEncode kv.1, kv.2)).map Prod.fst)
                  = (es.map Prod.fst).map strEncode := by
          simp [List.map_map, Function.comp]
        rw [hmm2]
        apply List.Nodup.map_on _ hnd
        intro x hx y _ hxy
        obtain ⟨kv, hkv, hfst⟩ := List.mem_map.mp hx
        have hvx : validate_utf8_scalar (strEncode x) = .ok () := by
          rw [← hfst]; exact hval kv hkv
        exact strEncode_inj_valid x y hvx hxy
    simp only [bind_ok_left]
    rw [hsort]
  · have hval' : ¬ ∀ kv ∈ es', validate_utf8_scalar (strEncode kv.1) = .ok () :=
      fun hall => hval (fun kv hm => hall kv (hperm.mem_iff.mp hm))
    rw [collect_map_items_err es hval, collect_map_items_err es' hval']

/-- **C5.** For a MAP value with pairwise-distinct keys (part of being a legal
MAP value), permuting the order of its input entries leaves the result of
`canonical_bytes_full` unchanged — in particular, on any legal MAP the
CANON_BYTES are byte-identical, because the encoder sorts the collected
entries by unsigned-octet key order before emitting them. -/
theorem C5_reordering_invariance (es es' : List (List Nat × Value))
    (hperm : es.Perm es') (hnd : (es.map Prod.fst).Nodup) :
    canonical_bytes_full (vmap es) = canonical_bytes_full (vmap es') := by
  have h := encode_map_perm es es' hperm hnd 63 0
  unfold canonical_bytes_full full_project canon_bytes_from_value
  rw [show FUEL = 63 + 1 from rfl, h]

theorem C5_reordering_invariance_witness :
    ([([98], vint 1), ([97], vbool true)].Perm [([97], vbool true), ([98], vint 1)]) ∧
    (([([98], vint 1), ([97], vbool true)].map (Prod.fst (α := List Nat) (β := Value))).Nodup) ∧
    canonical_bytes_full (vmap [([98], vint 1), ([97], vbool true)])
      = canonical_bytes_full (vmap [([97], vbool true), ([98], vint 1)]) :=
  ⟨List.Perm.swap _ _ _, by decide,
   C5_reordering_invariance _ _ (List.Perm.swap _ _ _) (by decide)⟩

/-! ## Round-trip groundwork: decode of encoder output -/

theorem bind_ok_inv {α β : Type} {e : Except ErrCode α} {f : α → Except ErrCode β} {c : β}
    (h : (e >>= f) = .ok c) : ∃ a, e = .ok a ∧ f a = .ok c := by
  cases e with
  | error err => rw [bind_error_left] at h; exact absurd h (by simp)
  | ok a => rw [bind_ok_left] at h; exact ⟨a, rfl, h⟩

theorem take_app (l r : List Nat) : (l ++ r).take l.length = l := by
  induction l with
  | nil => rfl
  | cons x xs ih => simp [ih]

theorem drop_app (l r : List Nat) : (l ++ r).drop l.length = r := by
  induction l with
  | nil => rfl
  | cons x xs ih => simp [ih]

theorem read_u32be_round (n : Nat) (lb r : List Nat) (h : _u32be n = .ok lb) :
    read_u32be (lb ++ r) = .ok (n, r) := by
  rw [_u32be] at h
  by_cases hn : n > 0xFFFFFFFF
  · rw [if_pos hn] at h; exact absurd h (by simp)
  rw [if_neg hn] at h
  have hlb : lb = [n / 2 ^ 24 % 256, n / 2 ^ 16 % 256, n / 2 ^ 8 % 256, n % 256] := by
    injection h with h'
    exact h'.symm
  subst hlb
  show Except.ok
      (n / 2 ^ 24 % 256 * 2 ^ 24 + n / 2 ^ 16 % 256 * 2 ^ 16 + n / 2 ^ 8 % 256 * 2 ^ 8 + n % 256,
       r) = .ok (n, r)
  rw [show n / 2 ^ 24 % 256 * 2 ^ 24 + n / 2 ^ 16 % 256 * 2 ^ 16 + n / 2 ^ 8 % 256 * 2 ^ 8 +
        n % 256 = n from by omega]

theorem validate_no_surr (b cps : List Nat) (h : validate_utf8_scalar b = .ok ())
    (hd : utf8Decode b = some cps) : cps.any isSurrogate = false := by
  cases hs : cps.any isSurrogate
  · rfl
  · simp [validate_utf8_scalar, hd, hs] at h

/-- Definitional unfolding: STRING branch of the decoder. -/
theorem dec_one_str (f : Nat) (bs : List Nat) (d : Nat) :
    _mcf_decode_one (f + 1) (TAG_STRING :: bs) d =
      read_u32be bs >>= fun p =>
        match p with
        | (n, r1) =>
          if r1.length < n then .error ERR_CANON_MCF
          else
            match utf8Decode (r1.take n) with
            | none => .error ERR_UTF8
            | some cps =>
              if cps.any isSurrogate then .error ERR_UTF8
              else .ok (vstr cps, r1.drop n) := rfl

/-- Definitional unfolding: BYTES branch of the decoder. -/
theorem dec_one_bytes (f : Nat) (bs : List Nat) (d : Nat) :
    _mcf_decode_one (f + 1) (TAG_BYTES :: bs) d =
      read_u32be bs >>= fun p =>
        match p with
        | (n, r1) =>
          if r1.length < n then .error ERR_CANON_MCF
          else .ok (vbytes (r1.take n), r1.drop n) := rfl

/-- Definitional unfolding: LIST branch of the decoder. -/
theorem dec_one_list (f : Nat) (bs : List Nat) (d : Nat) :
    _mcf_decode_one (f + 1) (TAG_LIST :: bs) d =
      if d + 1 > MAX_DEPTH then .error ERR_LIMIT_DEPTH
      else
        read_u32be bs >>= fun p =>
          match p with
          | (count, r1) =>
            if count > MAX_LIST_ENTRIES then .error ERR_LIMIT_SIZE
            else
              decodeListAux (_mcf_decode_one f) count r1 (d + 1) >>= fun q =>
                match q with
                | (arr, r2) => .ok (vlist arr, r2) := rfl

/-- Definitional unfolding: MAP branch of the decoder. -/
theorem dec_one_map (f : Nat) (bs : List Nat) (d : Nat) :
    _mcf_decode_one (f + 1) (TAG_MAP :: bs) d =
      if d + 1 > MAX_DEPTH then .error ERR_LIMIT_DEPTH
      else
        read_u32be bs >>= fun p =>
          match p with
          | (count, r1) =>
            if count > MAX_MAP_ENTRIES then .error ERR_LIMIT_SIZE
            else
              decodeMapAux (_mcf_decode_one f) count r1 d none >>= fun q =>
                match q with
                | (entries, r2) => .ok (vmap entries, r2) := rfl

/-- A STRING frame emitted for a validated string decodes back to exactly that
string, consuming exactly the frame. -/
theorem dec_string_frame (f : Nat) (s : List Nat) (lb tail : List Nat) (d : Nat)
    (hlb : _u32be (strEncode s).length = .ok lb)
    (hv : validate_utf8_scalar (strEncode s) = .ok ()) :
    _mcf_decode_one (f + 1) ((TAG_STRING :: lb ++ strEncode s) ++ tail) d
      = .ok (vstr s, tail) := by
  rw [show (TAG_STRING :: lb ++ strEncode s) ++ tail
        = TAG_STRING :: (lb ++ (strEncode s ++ tail)) from by simp]
  rw [dec_one_str, read_u32be_round _ _ _ hlb, bind_ok_left]
  show (if (strEncode s ++ tail).length < (strEncode s).length then _ else _) = _
  rw [if_neg (by simp)]
  rw [take_app, drop_app, decode_of_validate s hv]
  have hns := validate_no_surr (strEncode s) s hv (decode_of_validate s hv)
  simp [hns]

/-- Definitional unfoldings of the remaining encoder branches and loops. -/
theorem mcf_encode_vbool (f : Nat) (b : Bool) (d : Nat) :
    mcf_encode_value (f + 1) (vbool b) d = .ok [TAG_BOOLEAN, if b then 1 else 0] := rfl

theorem mcf_encode_vstr (f : Nat) (s : List Nat) (d : Nat) :
    mcf_encode_value (f + 1) (vstr s) d =
      validate_utf8_scalar (strEncode s) >>= fun _ =>
      _u32be (strEncode s).length >>= fun lb =>
      .ok (TAG_STRING :: lb ++ strEncode s) := rfl

theorem mcf_encode_vbytes (f : Nat) (bs : List Nat) (d : Nat) :
    mcf_encode_value (f + 1) (vbytes bs) d =
      _u32be bs.length >>= fun lb => .ok (TAG_BYTES :: lb ++ bs) := rfl

theorem mcf_encode_vlist (f : Nat) (l : List Value) (d : Nat) :
    mcf_encode_value (f + 1) (vlist l) d =
      if d + 1 > MAX_DEPTH then .error ERR_LIMIT_DEPTH
      else if l.length > MAX_LIST_ENTRIES then .error ERR_LIMIT_SIZE
      else
        _u32be l.length >>= fun lb =>
        encodeListAux (mcf_encode_value f) l (d + 1) >>= fun body =>
        .ok (TAG_LIST :: lb ++ body) := rfl

theorem encodeListAux_cons (enc : Value → Nat → Except ErrCode (List Nat))
    (v : Value) (tail : List Value) (d : Nat) :
    encodeListAux enc (v :: tail) d =
      enc v d >>= fun vb =>
      encodeListAux enc tail d >>= fun rb =>
      .ok (vb ++ rb) := rfl

theorem encodeEntriesAux_cons (enc : Value → Nat → Except ErrCode (List Nat))
    (kb : List Nat) (v : Value) (tail : List (List Nat × Value)) (d : Nat) :
    encodeEntriesAux enc ((kb, v) :: tail) d =
      _u32be kb.length >>= fun lb =>
      enc v (d + 1) >>= fun vb =>
      encodeEntriesAux enc tail d >>= fun rb =>
      .ok (TAG_STRING :: lb ++ kb ++ vb ++ rb) := rfl

theorem decodeListAux_succ (dec : List Nat → Nat → Except ErrCode (Value × List Nat))
    (count : Nat) (buf : List Nat) (d : Nat) :
    decodeListAux dec (count + 1) buf d =
      dec buf d >>= fun p =>
        match p with
        | (v, r1) =>
          decodeListAux dec count r1 d >>= fun q =>
            match q with
            | (vs, r2) => .ok (v :: vs, r2) := rfl

theorem decodeMapAux_cons_tag (dec : List Nat → Nat → Except ErrCode (Value × List Nat))
    (count : Nat) (bs : List Nat) (d : Nat) (prev : Option (List Nat)) :
    decodeMapAux dec (count + 1) (TAG_STRING :: bs) d prev =
      dec (TAG_STRING :: bs) (d + 1) >>= fun p =>
        match p with
        | (k, r1) =>
          match k with
          | vstr s =>
            check_key_order prev (strEncode s) >>= fun _ =>
            dec r1 (d + 1) >>= fun q =>
              match q with
              | (v, r2) =>
                decodeMapAux dec count r2 d (some (strEncode s)) >>= fun w =>
                  match w with
                  | (entries, r3) => .ok ((s, v) :: entries, r3)
          | _ => .error ERR_SCHEMA := rfl

theorem ensure_cons_cons (a b : List Nat) (rest : List (List Nat))
    (h : _ensure_sorted_unique (a :: b :: rest) = .ok ()) :
    _key_cmp a b < 0 ∧ _ensure_sorted_unique (b :: rest) = .ok () := by
  rw [_ensure_sorted_unique] at h
  by_cases h0 : _key_cmp a b = 0
  · rw [if_pos h0] at h; exact absurd h (by simp)
  rw [if_neg h0] at h
  by_cases h1 : _key_cmp a b > 0
  · rw [if_pos h1] at h; exact absurd h (by simp)
  rw [if_neg h1] at h
  exact ⟨by omega, h⟩

/-- `prev`-prefixed key list threaded through the MAP-decode order argument. -/
def prevCons : Option (List Nat) → List (List Nat) → List (List Nat)
  | none, l => l
  | some pk, l => pk :: l

theorem collect_map_items_mem (l : List (List Nat × Value)) :
    ∀ items, collect_map_items l = .ok items →
    ∀ kv ∈ items, ∃ k, kv.1 = strEncode k ∧ validate_utf8_scalar kv.1 = .ok () := by
  induction l with
  | nil =>
    intro items h kv hm
    have hi : ([] : List (List Nat × Value)) = items := by injection h
    rw [← hi] at hm
    exact absurd hm (by simp)
  | cons kv0 rest ih =>
    obtain ⟨k0, v0⟩ := kv0
    intro items h kv hm
    obtain ⟨u, hval, h2⟩ := bind_ok_inv h
    cases u
    obtain ⟨rest', hrest', h3⟩ := bind_ok_inv h2
    have hi : (strEncode k0, v0) :: rest' = items := by injection h3
    rw [← hi] at hm
    rcases List.mem_cons.mp hm with he | hm'
    · exact ⟨k0, by rw [he], by rw [he]; exact hval⟩
    · exact ih rest' hrest' kv hm'

theorem collect_map_items_length (l : List (List Nat × Value)) :
    ∀ items, collect_map_items l = .ok items → items.length = l.length := by
  induction l with
  | nil =>
    intro items h
    have hi : ([] : List (List Nat × Value)) = items := by injection h
    rw [← hi]
  | cons kv0 rest ih =>
    obtain ⟨k0, v0⟩ := kv0
    intro items h
    obtain ⟨u, hval, h2⟩ := bind_ok_inv h
    obtain ⟨rest', hrest', h3⟩ := bind_ok_inv h2
    have hi : (strEncode k0, v0) :: rest' = items := by injection h3
    rw [← hi]
    simp [ih rest' hrest']

theorem decodeListAux_round (enc : Value → Nat → Except ErrCode (List Nat)) (f : Nat)
    (hed : ∀ v d b, enc v d = .ok b →
      ∀ rest, ∃ v', _mcf_decode_one f (b ++ rest) d = .ok (v', rest)) :
    ∀ (l : List Value) (d : Nat) (body : List Nat),
      encodeListAux enc l d = .ok body →
      ∀ rest, ∃ vs,
        decodeListAux (_mcf_decode_one f) l.length (body ++ rest) d = .ok (vs, rest) := by
  intro l
  induction l with
  | nil =>
    intro d body hb rest
    have hbody : ([] : List Nat) = body := by injection hb
    rw [← hbody]
    exact ⟨[], rfl⟩
  | cons v vrest ih =>
    intro d body hb rest
    rw [encodeListAux_cons] at hb
    obtain ⟨vb, hvb, h2⟩ := bind_ok_inv hb
    obtain ⟨rb, hrb, h3⟩ := bind_ok_inv h2
    have hbody : body = vb ++ rb := by injection h3 with h'; exact h'.symm
    subst hbody
    obtain ⟨v', hv'⟩ := hed v d vb hvb (rb ++ rest)
    obtain ⟨vs, hvs⟩ := ih d rb hrb rest
    refine ⟨v' :: vs, ?_⟩
    show decodeListAux _ (vrest.length + 1) ((vb ++ rb) ++ rest) d = _
    rw [decodeListAux_succ, List.append_assoc, hv', bind_ok_left]
    show (decodeListAux (_mcf_decode_one f) vrest.length (rb ++ rest) d >>= fun q =>
      match q with
      | (vs, r2) => Except.ok (v' :: vs, r2)) = _
    rw [hvs, bind_ok_left]

theorem decodeMapAux_round (enc : Value → Nat → Except ErrCode (List Nat)) (f : Nat)
    (hed : ∀ v d b, enc v d = .ok b →
      ∀ rest, ∃ v', _mcf_decode_one (f + 1) (b ++ rest) d = .ok (v', rest)) :
    ∀ (entries : List (List Nat × Value)) (d : Nat) (prev : Option (List Nat)) (body : List Nat),
      (∀ kv ∈ entries, ∃ k, kv.1 = strEncode k ∧ validate_utf8_scalar kv.1 = .ok ()) →
      encodeEntriesAux enc entries d = .ok body →
      _ensure_sorted_unique (prevCons prev (entries.map Prod.fst)) = .ok () →
      ∀ rest, ∃ es,
        decodeMapAux (_mcf_decode_one (f + 1)) entries.length (body ++ rest) d prev
          = .ok (es, rest) := by
  intro entries
  induction entries with
  | nil =>
    intro d prev body _ hb _ rest
    have hbody : ([] : List Nat) = body := by injection hb
    rw [← hbody]
    exact ⟨[], rfl⟩
  | cons kv0 tail ih =>
    obtain ⟨kb, v⟩ := kv0
    intro d prev body hkeys hb hens rest
    rw [encodeEntriesAux_cons] at hb
    obtain ⟨lbk, hlb, h2⟩ := bind_ok_inv hb
    obtain ⟨vb, hvb, h3⟩ := bind_ok_inv h2
    obtain ⟨rb, hrb, h4⟩ := bind_ok_inv h3
    have hbody : body = TAG_STRING :: lbk ++ kb ++ vb ++ rb := by
      injection h4 with h'; exact h'.symm
    subst hbody
    obtain ⟨k, hkeq, hkv⟩ := hkeys (kb, v) (by simp)
    simp only at hkeq
    subst hkeq
    -- the key frame decodes to exactly the key string
    have hkey : _mcf_decode_one (f + 1)
        (TAG_STRING :: (lbk ++ (strEncode k ++ (vb ++ (rb ++ rest))))) (d + 1)
        = .ok (vstr k, vb ++ (rb ++ rest)) := by
      have h := dec_string_frame f k lbk (vb ++ (rb ++ rest)) (d + 1) hlb hkv
      simpa [List.append_assoc] using h
    -- the order check passes and the tail order hypothesis persists
    have hck : check_key_order prev (strEncode k) = .ok () ∧
        _ensure_sorted_unique (prevCons (some (strEncode k)) (tail.map Prod.fst)) = .ok () := by
      cases prev with
      | none => exact ⟨rfl, hens⟩
      | some pk =>
        obtain ⟨hcmp, htail⟩ := ensure_cons_cons pk (strEncode k) (tail.map Prod.fst) hens
        refine ⟨?_, htail⟩
        rw [check_key_order]
        rw [if_neg (by omega), if_neg (by omega)]
    obtain ⟨v', hv'⟩ := hed v (d + 1) vb hvb (rb ++ rest)
    obtain ⟨es', hes'⟩ := ih d (some (strEncode k)) rb
      (fun kv hm => hkeys kv (List.mem_cons_of_mem _ hm)) hrb hck.2 rest
    refine ⟨(k, v') :: es', ?_⟩
    show decodeMapAux _ (tail.length + 1)
      ((TAG_STRING :: lbk ++ strEncode k ++ vb ++ rb) ++ rest) d prev = _
    rw [show (TAG_STRING :: lbk ++ strEncode k ++ vb ++ rb) ++ rest
        = TAG_STRING :: (lbk ++ (strEncode k ++ (vb ++ (rb ++ rest)))) from by simp]
    rw [decodeMapAux_cons_tag, hkey, bind_ok_left]
    show (check_key_order prev (strEncode k) >>= fun _ =>
      _mcf_decode_one (f + 1) (vb ++ (rb ++ rest)) (d + 1) >>= fun q =>
        match q with
        | (v, r2) =>
          decodeMapAux (_mcf_decode_one (f + 1)) tail.length r2 d (some (strEncode k)) >>=
            fun w =>
            match w with
            | (entries, r3) => Except.ok ((k, v) :: entries, r3)) = _
    rw [hck.1, bind_ok_left, hv', bind_ok_left]
    show (decodeMapAux (_mcf_decode_one (f + 1)) tail.length (rb ++ rest) d
        (some (strEncode k)) >>= fun w =>
        match w with
        | (entries, r3) => Except.ok ((k, v') :: entries, r3)) = _
    rw [hes', bind_ok_left]

theorem encode_decode_round : ∀ (g : Nat) (v : Value) (d : Nat) (b : List Nat),
    mcf_encode_value g v d = .ok b →
    ∀ f, g ≤ f → ∀ rest, ∃ v', _mcf_decode_one f (b ++ rest) d = .ok (v', rest) := by
  intro g
  induction g with
  | zero =>
    intro v d b h
    exact absurd h (by simp [mcf_encode_value])
  | succ g ih =>
    intro v d b h f hf rest
    obtain ⟨f1, rfl⟩ : ∃ f1, f = f1 + 1 := ⟨f - 1, by omega⟩
    have hgf : g ≤ f1 := by omega
    cases v with
    | vbool bb =>
      rw [mcf_encode_vbool] at h
      have hb : b = [TAG_BOOLEAN, if bb then 1 else 0] := by injection h with h'; exact h'.symm
      subst hb
      cases bb
      · exact ⟨vbool false, rfl⟩
      · exact ⟨vbool true, rfl⟩
    | vint n =>
      rw [mcf_encode_vint] at h
      by_cases hr : n < INT64_MIN ∨ n > INT64_MAX
      · rw [if_pos hr] at h; exact absurd h (by simp)
      rw [if_neg hr] at h
      have hb : b = TAG_INTEGER :: int64be n := by injection h with h'; exact h'.symm
      subst hb
      exact ⟨_, rfl⟩
    | vstr s =>
      rw [mcf_encode_vstr] at h
      obtain ⟨u, hval, h2⟩ := bind_ok_inv h
      cases u
      obtain ⟨lb, hlb, h3⟩ := bind_ok_inv h2
      have hb : b = TAG_STRING :: lb ++ strEncode s := by injection h3 with h'; exact h'.symm
      subst hb
      exact ⟨vstr s, dec_string_frame f1 s lb rest d hlb hval⟩
    | vbytes bs =>
      rw [mcf_encode_vbytes] at h
      obtain ⟨lb, hlb, h2⟩ := bind_ok_inv h
      have hb : b = TAG_BYTES :: lb ++ bs := by injection h2 with h'; exact h'.symm
      subst hb
      refine ⟨vbytes bs, ?_⟩
      rw [show (TAG_BYTES :: lb ++ bs) ++ rest = TAG_BYTES :: (lb ++ (bs ++ rest)) from by simp]
      rw [dec_one_bytes, read_u32be_round _ _ _ hlb, bind_ok_left]
      show (if (bs ++ rest).length < bs.length then _ else _) = _
      rw [if_neg (by simp)]
      rw [take_app, drop_app]
    | vlist l =>
      rw [mcf_encode_vlist] at h
      by_cases hd1 : d + 1 > MAX_DEPTH
      · rw [if_pos hd1] at h; exact absurd h (by simp)
      rw [if_neg hd1] at h
      by_cases hs : l.length > MAX_LIST_ENTRIES
      · rw [if_pos hs] at h; exact absurd h (by simp)
      rw [if_neg hs] at h
      obtain ⟨lb, hlb, h2⟩ := bind_ok_inv h
      obtain ⟨body, hbody, h3⟩ := bind_ok_inv h2
      have hb : b = TAG_LIST :: lb ++ body := by injection h3 with h'; exact h'.symm
      subst hb
      have hed : ∀ v d b, mcf_encode_value g v d = .ok b →
          ∀ rest, ∃ v', _mcf_decode_one f1 (b ++ rest) d = .ok (v', rest) :=
        fun v d b hb rest => ih v d b hb f1 hgf rest
      obtain ⟨vs, hvs⟩ := decodeListAux_round (mcf_encode_value g) f1 hed l (d + 1) body hbody rest
      refine ⟨vlist vs, ?_⟩
      rw [show (TAG_LIST :: lb ++ body) ++ rest = TAG_LIST :: (lb ++ (body ++ rest)) from by simp]
      rw [dec_one_list, if_neg hd1, read_u32be_round _ _ _ hlb, bind_ok_left]
      show (if l.length > MAX_LIST_ENTRIES then _ else _) = _
      rw [if_neg hs]
      show (decodeListAux (_mcf_decode_one f1) l.length (body ++ rest) (d + 1) >>= fun q =>
        match q with
        | (arr, r2) => Except.ok (vlist arr, r2)) = _
      rw [hvs, bind_ok_left]
    | vmap es =>
      rw [mcf_encode_vmap] at h
      by_cases hd1 : d + 1 > MAX_DEPTH
      · rw [if_pos hd1] at h; exact absurd h (by simp)
      rw [if_neg hd1] at h
      by_cases hs : es.length > MAX_MAP_ENTRIES
      · rw [if_pos hs] at h; exact absurd h (by simp)
      rw [if_neg hs] at h
      obtain ⟨items, hitems, h2⟩ := bind_ok_inv h
      obtain ⟨u, hens, h3⟩ := bind_ok_inv h2
      cases u
      obtain ⟨lb, hlb, h4⟩ := bind_ok_inv h3
      obtain ⟨body, hbody, h5⟩ := bind_ok_inv h4
      have hb : b = TAG_MAP :: lb ++ body := by injection h5 with h'; exact h'.symm
      subst hb
      have hsortlen : (List.insertionSort entryLe items).length = es.length := by
        rw [(List.perm_insertionSort entryLe items).length_eq]
        exact collect_map_items_length es items hitems
      cases hsor : List.insertionSort entryLe items with
      | nil =>
        rw [hsor] at hbody hlb hsortlen
        have hbody' : ([] : List Nat) = body := by injection hbody
        rw [← hbody']
        refine ⟨vmap [], ?_⟩
        rw [show (TAG_MAP :: lb ++ ([] : List Nat)) ++ rest
            = TAG_MAP :: (lb ++ rest) from by simp]
        rw [dec_one_map, if_neg hd1]
        rw [show lb ++ rest = lb ++ ([] ++ rest) from by simp]
        rw [read_u32be_round _ _ _ hlb, bind_ok_left]
        show (if (0 : Nat) > MAX_MAP_ENTRIES then _ else _) = _
        rw [if_neg (by simp [MAX_MAP_ENTRIES])]
        rfl
      | cons e0 tail0 =>
        rw [hsor] at hbody hlb hens hsortlen
        have hg1 : 1 ≤ g := by
          by_contra hg
          have hg0 : g = 0 := by omega
          subst hg0
          obtain ⟨kb0, v0⟩ := e0
          rw [encodeEntriesAux_cons] at hbody
          obtain ⟨lbk, _, h6⟩ := bind_ok_inv hbody
          obtain ⟨vb, hvb, _⟩ := bind_ok_inv h6
          exact absurd hvb (by simp [mcf_encode_value])
        obtain ⟨f2, rfl⟩ : ∃ f2, f1 = f2 + 1 := ⟨f1 - 1, by omega⟩
        have hed : ∀ v d b, mcf_encode_value g v d = .ok b →
            ∀ rest, ∃ v', _mcf_decode_one (f2 + 1) (b ++ rest) d = .ok (v', rest) :=
          fun v d b hb rest => ih v d b hb (f2 + 1) hgf rest
        have hkeys : ∀ kv ∈ e0 :: tail0,
            ∃ k, kv.1 = strEncode k ∧ validate_utf8_scalar kv.1 = .ok () := by
          intro kv hm
          have hperm := List.perm_insertionSort entryLe items
          rw [hsor] at hperm
          exact collect_map_items_mem es items hitems kv (hperm.subset hm)
        obtain ⟨es', hes'⟩ := decodeMapAux_round (mcf_encode_value g) f2 hed
          (e0 :: tail0) d none body hkeys hbody hens rest
        refine ⟨vmap es', ?_⟩
        rw [show (TAG_MAP :: lb ++ body) ++ rest
            = TAG_MAP :: (lb ++ (body ++ rest)) from by simp]
        rw [dec_one_map, if_neg hd1, read_u32be_round _ _ _ hlb, bind_ok_left]
        show (if (e0 :: tail0).length > MAX_MAP_ENTRIES then _ else _) = _
        rw [if_neg (by omega)]
        show (decodeMapAux (_mcf_decode_one (f2 + 1)) (e0 :: tail0).length
            (body ++ rest) d none >>= fun q =>
          match q with
          | (entries, r2) => Except.ok (vmap entries, r2)) = _
        rw [hes', bind_ok_left]

/-- **C4.** Round trip: whenever `canonical_bytes_full` succeeds on a value
(as it does on every legal canonical-model value), `mid_from_canon_bytes`
accepts the produced CANON_BYTES — the decoder consumes the entire body —
and returns the same MID that `mid_full` computes on the value: both sides
hash the same bytes. -/
theorem C4_round_trip (v : Value) (c : List Nat)
    (h : canonical_bytes_full v = .ok c) :
    mid_from_canon_bytes c = .ok (mid_string c) ∧ mid_full v = .ok (mid_string c) := by
  have hraw : canon_bytes_from_value v = .ok c := h
  rw [canon_bytes_from_value] at hraw
  obtain ⟨body, henc, h2⟩ := bind_ok_inv hraw
  have h2' : (if (CANON_HDR ++ body).length > MAX_CANON_BYTES
      then (.error ERR_LIMIT_SIZE : Except ErrCode (List Nat))
      else .ok (CANON_HDR ++ body)) = .ok c := h2
  by_cases hlen : (CANON_HDR ++ body).length > MAX_CANON_BYTES
  · rw [if_pos hlen] at h2'; exact absurd h2' (by simp)
  rw [if_neg hlen] at h2'
  have hc : c = CANON_HDR ++ body := by injection h2' with h'; exact h'.symm
  subst hc
  constructor
  · rw [mid_from_canon_bytes, if_neg hlen]
    rw [if_neg (fun hne => hne rfl)]
    obtain ⟨v', hv'⟩ := encode_decode_round FUEL v 0 body henc FUEL (Nat.le_refl _) []
    rw [List.append_nil] at hv'
    rw [show (CANON_HDR ++ body).drop 5 = body from rfl, hv', bind_ok_left]
    show (if ([] : List Nat) ≠ [] then _ else _) = _
    rw [if_neg (by simp)]
  · show (canonical_bytes_full v >>= fun c => Except.ok (mid_string c)) = _
    rw [h, bind_ok_left]

theorem C4_round_trip_witness :
    canonical_bytes_full (vmap [([97], vbool true)])
      = .ok [77, 65, 80, 49, 0, 4, 0, 0, 0, 1, 1, 0, 0, 0, 1, 97, 5, 1] ∧
    (mid_from_canon_bytes [77, 65, 80, 49, 0, 4, 0, 0, 0, 1, 1, 0, 0, 0, 1, 97, 5, 1]
        = .ok (mid_string [77, 65, 80, 49, 0, 4, 0, 0, 0, 1, 1, 0, 0, 0, 1, 97, 5, 1]) ∧
      mid_full (vmap [([97], vbool true)])
        = .ok (mid_string [77, 65, 80, 49, 0, 4, 0, 0, 0, 1, 1, 0, 0, 0, 1, 97, 5, 1])) :=
  ⟨rfl, C4_round_trip _ _ rfl⟩

/-! ## A non-STRING tag at a MAP key position (`_core.py` lines 244-252) -/

theorem decodeMapAux_cons_any (dec : List Nat → Nat → Except ErrCode (Value × List Nat))
    (count : Nat) (t : Nat) (bs : List Nat) (d : Nat) (prev : Option (List Nat)) :
    decodeMapAux dec (count + 1) (t :: bs) d prev =
      if t ≠ TAG_STRING then .error ERR_SCHEMA
      else
        dec (t :: bs) (d + 1) >>= fun p =>
          match p with
          | (k, r1) =>
            match k with
            | vstr s =>
              check_key_order prev (strEncode s) >>= fun _ =>
              dec r1 (d + 1) >>= fun q =>
                match q with
                | (v, r2) =>
                  decodeMapAux dec count r2 d (some (strEncode s)) >>= fun w =>
                    match w with
                    | (entries, r3) => .ok ((s, v) :: entries, r3)
            | _ => .error ERR_SCHEMA := rfl

theorem decodeMapAux_bad_tag (enc : Value → Nat → Except ErrCode (List Nat)) (f : Nat)
    (hed : ∀ v d b, enc v d = .ok b →
      ∀ rest, ∃ v', _mcf_decode_one (f + 1) (b ++ rest) d = .ok (v', rest)) :
    ∀ (entries : List (List Nat × Value)) (d : Nat) (prev : Option (List Nat)) (body : List Nat),
      (∀ kv ∈ entries, ∃ k, kv.1 = strEncode k ∧ validate_utf8_scalar kv.1 = .ok ()) →
      encodeEntriesAux enc entries d = .ok body →
      _ensure_sorted_unique (prevCons prev (entries.map Prod.fst)) = .ok () →
      ∀ (j t : Nat) (junk : List Nat), t ≠ TAG_STRING →
        decodeMapAux (_mcf_decode_one (f + 1)) (entries.length + (j + 1))
          (body ++ t :: junk) d prev = .error ERR_SCHEMA := by
  intro entries
  induction entries with
  | nil =>
    intro d prev body _ hb _ j t junk ht
    have hbody : ([] : List Nat) = body := by injection hb
    rw [← hbody]
    show decodeMapAux _ ((0 + j) + 1) (t :: junk) d prev = _
    rw [decodeMapAux_cons_any, if_pos ht]
  | cons kv0 tail ih =>
    obtain ⟨kb, v⟩ := kv0
    intro d prev body hkeys hb hens j t junk ht
    rw [encodeEntriesAux_cons] at hb
    obtain ⟨lbk, hlb, h2⟩ := bind_ok_inv hb
    obtain ⟨vb, hvb, h3⟩ := bind_ok_inv h2
    obtain ⟨rb, hrb, h4⟩ := bind_ok_inv h3
    have hbody : body = TAG_STRING :: lbk ++ kb ++ vb ++ rb := by
      injection h4 with h'; exact h'.symm
    subst hbody
    obtain ⟨k, hkeq, hkv⟩ := hkeys (kb, v) (by simp)
    simp only at hkeq
    subst hkeq
    have hkey : _mcf_decode_one (f + 1)
        (TAG_STRING :: (lbk ++ (strEncode k ++ (vb ++ (rb ++ t :: junk))))) (d + 1)
        = .ok (vstr k, vb ++ (rb ++ t :: junk)) := by
      have h := dec_string_frame f k lbk (vb ++ (rb ++ t :: junk)) (d + 1) hlb hkv
      simpa [List.append_assoc] using h
    have hck : check_key_order prev (strEncode k) = .ok () ∧
        _ensure_sorted_unique (prevCons (some (strEncode k)) (tail.map Prod.fst)) = .ok () := by
      cases prev with
      | none => exact ⟨rfl, hens⟩
      | some pk =>
        obtain ⟨hcmp, htail⟩ := ensure_cons_cons pk (strEncode k) (tail.map Prod.fst) hens
        refine ⟨?_, htail⟩
        rw [check_key_order]
        rw [if_neg (by omega), if_neg (by omega)]
    obtain ⟨v', hv'⟩ := hed v (d + 1) vb hvb (rb ++ t :: junk)
    have hrec := ih d (some (strEncode k)) rb
      (fun kv hm => hkeys kv (List.mem_cons_of_mem _ hm)) hrb hck.2 j t junk ht
    rw [show ((strEncode k, v) :: tail : List (List Nat × Value)).length + (j + 1)
        = (tail.length + (j + 1)) + 1 from by simp only [List.length_cons]; omega]
    rw [show (TAG_STRING :: lbk ++ strEncode k ++ vb ++ rb) ++ t :: junk
        = TAG_STRING :: (lbk ++ (strEncode k ++ (vb ++ (rb ++ t :: junk)))) from by simp]
    rw [decodeMapAux_cons_tag, hkey, bind_ok_left]
    show (check_key_order prev (strEncode k) >>= fun _ =>
      _mcf_decode_one (f + 1) (vb ++ (rb ++ t :: junk)) (d + 1) >>= fun q =>
        match q with
        | (v, r2) =>
          decodeMapAux (_mcf_decode_one (f + 1)) (tail.length + (j + 1)) r2 d
              (some (strEncode k)) >>= fun w =>
            match w with
            | (entries, r3) => Except.ok ((k, v) :: entries, r3)) = _
    rw [hck.1, bind_ok_left, hv', bind_ok_left]
    show (decodeMapAux (_mcf_decode_one (f + 1)) (tail.length + (j + 1)) (rb ++ t :: junk) d
        (some (strEncode k)) >>= fun w =>
        match w with
        | (entries, r3) => Except.ok ((k, v') :: entries, r3)) = _
    rw [hrec, bind_error_left]

theorem decodeListAux_partial_err (enc : Value → Nat → Except ErrCode (List Nat)) (f : Nat)
    (hed : ∀ v d b, enc v d = .ok b →
      ∀ rest, ∃ v', _mcf_decode_one f (b ++ rest) d = .ok (v', rest)) :
    ∀ (l : List Value) (d : Nat) (body : List Nat),
      encodeListAux enc l d = .ok body →
      ∀ (e : ErrCode) (pb : List Nat), _mcf_decode_one f pb d = .error e →
      ∀ j, decodeListAux (_mcf_decode_one f) (l.length + (j + 1)) (body ++ pb) d
        = .error e := by
  intro l
  induction l with
  | nil =>
    intro d body hb e pb hpe j
    have hbody : ([] : List Nat) = body := by injection hb
    rw [← hbody]
    show decodeListAux _ ((0 + j) + 1) pb d = _
    rw [decodeListAux_succ, hpe, bind_error_left]
  | cons v vrest ih =>
    intro d body hb e pb hpe j
    rw [encodeListAux_cons] at hb
    obtain ⟨vb, hvb, h2⟩ := bind_ok_inv hb
    obtain ⟨rb, hrb, h3⟩ := bind_ok_inv h2
    have hbody : body = vb ++ rb := by injection h3 with h'; exact h'.symm
    subst hbody
    obtain ⟨v', hv'⟩ := hed v d vb hvb (rb ++ pb)
    rw [show (v :: vrest : List Value).length + (j + 1) = (vrest.length + (j + 1)) + 1
        from by simp only [List.length_cons]; omega]
    rw [decodeListAux_succ, List.append_assoc, hv', bind_ok_left]
    show (decodeListAux (_mcf_decode_one f) (vrest.length + (j + 1)) (rb ++ pb) d >>= fun q =>
      match q with
      | (vs, r2) => Except.ok (v' :: vs, r2)) = _
    rw [ih d rb hrb e pb hpe j, bind_error_left]

theorem decodeMapAux_partial_err (enc : Value → Nat → Except ErrCode (List Nat)) (f : Nat)
    (hed : ∀ v d b, enc v d = .ok b →
      ∀ rest, ∃ v', _mcf_decode_one (f + 1) (b ++ rest) d = .ok (v', rest)) :
    ∀ (entries : List (List Nat × Value)) (d : Nat) (prev : Option (List Nat)) (body : List Nat),
      (∀ kv ∈ entries, ∃ k, kv.1 = strEncode k ∧ validate_utf8_scalar kv.1 = .ok ()) →
      encodeEntriesAux enc entries d = .ok body →
      ∀ (klast : List Nat) (lbk : List Nat),
        _u32be (strEncode klast).length = .ok lbk →
        validate_utf8_scalar (strEncode klast) = .ok () →
        _ensure_sorted_unique (prevCons prev (entries.map Prod.fst ++ [strEncode klast]))
          = .ok () →
      ∀ (e : ErrCode) (pb : List Nat), _mcf_decode_one (f + 1) pb (d + 1) = .error e →
      ∀ j, decodeMapAux (_mcf_decode_one (f + 1)) (entries.length + (j + 1))
        (body ++ (TAG_STRING :: lbk ++ strEncode klast) ++ pb) d prev = .error e := by
  intro entries
  induction entries with
  | nil =>
    intro d prev body _ hb klast lbk hlbk hkval hens e pb hpe j
    have hbody : ([] : List Nat) = body := by injection hb
    rw [← hbody]
    have hkey : _mcf_decode_one (f + 1)
        (TAG_STRING :: (lbk ++ (strEncode klast ++ pb))) (d + 1)
        = .ok (vstr klast, pb) := by
      have h := dec_string_frame f klast lbk pb (d + 1) hlbk hkval
      simpa [List.append_assoc] using h
    have hck : check_key_order prev (strEncode klast) = .ok () := by
      cases prev with
      | none => rfl
      | some pk =>
        obtain ⟨hcmp, _⟩ := ensure_cons_cons pk (strEncode klast) [] hens
        rw [check_key_order]
        rw [if_neg (by omega), if_neg (by omega)]
    show decodeMapAux _ ((0 + j) + 1)
      ((TAG_STRING :: lbk ++ strEncode klast) ++ pb) d prev = _
    rw [show (TAG_STRING :: lbk ++ strEncode klast) ++ pb
        = TAG_STRING :: (lbk ++ (strEncode klast ++ pb)) from by simp]
    rw [decodeMapAux_cons_tag, hkey, bind_ok_left]
    show (check_key_order prev (strEncode klast) >>= fun _ =>
      _mcf_decode_one (f + 1) pb (d + 1) >>= fun q =>
        match q with
        | (v, r2) =>
          decodeMapAux (_mcf_decode_one (f + 1)) (0 + j) r2 d
              (some (strEncode klast)) >>= fun w =>
            match w with
            | (entries, r3) => Except.ok ((klast, v) :: entries, r3)) = _
    rw [hck, bind_ok_left, hpe, bind_error_left]
  | cons kv0 tail ih =>
    obtain ⟨kb, v⟩ := kv0
    intro d prev body hkeys hb klast lbk hlbk hkval hens e pb hpe j
    rw [encodeEntriesAux_cons] at hb
    obtain ⟨lbk0, hlb0, h2⟩ := bind_ok_inv hb
    obtain ⟨vb, hvb, h3⟩ := bind_ok_inv h2
    obtain ⟨rb, hrb, h4⟩ := bind_ok_inv h3
    have hbody : body = TAG_STRING :: lbk0 ++ kb ++ vb ++ rb := by
      injection h4 with h'; exact h'.symm
    subst hbody
    obtain ⟨k, hkeq, hkv⟩ := hkeys (kb, v) (by simp)
    simp only at hkeq
    subst hkeq
    have hkey : _mcf_decode_one (f + 1)
        (TAG_STRING :: (lbk0 ++ (strEncode k ++
          (vb ++ (rb ++ ((TAG_STRING :: lbk ++ strEncode klast) ++ pb)))))) (d + 1)
        = .ok (vstr k, vb ++ (rb ++ ((TAG_STRING :: lbk ++ strEncode klast) ++ pb))) := by
      have h := dec_string_frame f k lbk0
        (vb ++ (rb ++ ((TAG_STRING :: lbk ++ strEncode klast) ++ pb))) (d + 1) hlb0 hkv
      simpa [List.append_assoc] using h
    have hck : check_key_order prev (strEncode k) = .ok () ∧
        _ensure_sorted_unique
          (prevCons (some (strEncode k)) (tail.map Prod.fst ++ [strEncode klast]))
          = .ok () := by
      cases prev with
      | none => exact ⟨rfl, hens⟩
      | some pk =>
        obtain ⟨hcmp, htail⟩ := ensure_cons_cons pk (strEncode k)
          (tail.map Prod.fst ++ [strEncode klast]) hens
        refine ⟨?_, htail⟩
        rw [check_key_order]
        rw [if_neg (by omega), if_neg (by omega)]
    obtain ⟨v', hv'⟩ := hed v (d + 1) vb hvb
      (rb ++ ((TAG_STRING :: lbk ++ strEncode klast) ++ pb))
    have hrec := ih d (some (strEncode k)) rb
      (fun kv hm => hkeys kv (List.mem_cons_of_mem _ hm)) hrb klast lbk hlbk hkval
      hck.2 e pb hpe j
    rw [show ((strEncode k, v) :: tail : List (List Nat × Value)).length + (j + 1)
        = (tail.length + (j + 1)) + 1 from by simp only [List.length_cons]; omega]
    rw [show (TAG_STRING :: lbk0 ++ strEncode k ++ vb ++ rb)
          ++ (TAG_STRING :: lbk ++ strEncode klast) ++ pb
        = TAG_STRING :: (lbk0 ++ (strEncode k ++
            (vb ++ (rb ++ ((TAG_STRING :: lbk ++ strEncode klast) ++ pb)))))
        from by simp]
    rw [decodeMapAux_cons_tag, hkey, bind_ok_left]
    show (check_key_order prev (strEncode k) >>= fun _ =>
      _mcf_decode_one (f + 1)
          (vb ++ (rb ++ ((TAG_STRING :: lbk ++ strEncode klast) ++ pb))) (d + 1) >>= fun q =>
        match q with
        | (v, r2) =>
          decodeMapAux (_mcf_decode_one (f + 1)) (tail.length + (j + 1)) r2 d
              (some (strEncode k)) >>= fun w =>
            match w with
            | (entries, r3) => Except.ok ((k, v) :: entries, r3)) = _
    rw [hck.1, bind_ok_left, hv', bind_ok_left]
    show (decodeMapAux (_mcf_decode_one (f + 1)) (tail.length + (j + 1))
        (rb ++ ((TAG_STRING :: lbk ++ strEncode klast) ++ pb)) d
        (some (strEncode k)) >>= fun w =>
        match w with
        | (entries, r3) => Except.ok ((k, v') :: entries, r3)) = _
    rw [show rb ++ ((TAG_STRING :: lbk ++ strEncode klast) ++ pb)
        = rb ++ (TAG_STRING :: lbk ++ strEncode klast) ++ pb from by simp]
    rw [hrec, bind_error_left]

/-- CANON_BYTES bodies in which some MAP entry key is framed with a tag other
than `TAG_STRING`, reachable by the decoder: a poisoned MAP itself (after any
run of well-formed, strictly ordered entries, with the bad tag within the
declared entry count), or such a buffer nested as a LIST element or as a MAP
entry value, under the depth and count limits.  Indexed by the decoder fuel
at which the buffer is consumed and by the depth at which it sits. -/
inductive BadKeyBuf : Nat → Nat → List Nat → Prop where
  | base (f d count j t : Nat) (lb junk goodBytes : List Nat)
      (goodEntries : List (List Nat × Value))
      (hlb : _u32be count = .ok lb)
      (hcount : count ≤ MAX_MAP_ENTRIES)
      (hdep : d + 1 ≤ MAX_DEPTH)
      (hkeys : ∀ kv ∈ goodEntries, ∃ k, kv.1 = strEncode k ∧
        validate_utf8_scalar kv.1 = .ok ())
      (henc : encodeEntriesAux (mcf_encode_value (f + 1)) goodEntries d = .ok goodBytes)
      (hens : _ensure_sorted_unique (goodEntries.map Prod.fst) = .ok ())
      (hj : count = goodEntries.length + (j + 1))
      (ht : t ≠ TAG_STRING) :
      BadKeyBuf (f + 1 + 1) d (TAG_MAP :: lb ++ goodBytes ++ t :: junk)
  | inList (f d count j : Nat) (lb goodBytes pb : List Nat)
      (goodElems : List Value)
      (hlb : _u32be count = .ok lb)
      (hcount : count ≤ MAX_LIST_ENTRIES)
      (hdep : d + 1 ≤ MAX_DEPTH)
      (henc : encodeListAux (mcf_encode_value (f + 1)) goodElems (d + 1) = .ok goodBytes)
      (hj : count = goodElems.length + (j + 1))
      (hpois : BadKeyBuf (f + 1) (d + 1) pb) :
      BadKeyBuf (f + 1 + 1) d (TAG_LIST :: lb ++ goodBytes ++ pb)
  | inMapValue (f d count j : Nat) (lb lbk goodBytes pb klast : List Nat)
      (goodEntries : List (List Nat × Value))
      (hlb : _u32be count = .ok lb)
      (hcount : count ≤ MAX_MAP_ENTRIES)
      (hdep : d + 1 ≤ MAX_DEPTH)
      (hkeys : ∀ kv ∈ goodEntries, ∃ k, kv.1 = strEncode k ∧
        validate_utf8_scalar kv.1 = .ok ())
      (henc : encodeEntriesAux (mcf_encode_value (f + 1)) goodEntries d = .ok goodBytes)
      (hlbk : _u32be (strEncode klast).length = .ok lbk)
      (hkval : validate_utf8_scalar (strEncode klast) = .ok ())
      (hens : _ensure_sorted_unique (goodEntries.map Prod.fst ++ [strEncode klast]) = .ok ())
      (hj : count = goodEntries.length + (j + 1))
      (hpois : BadKeyBuf (f + 1) (d + 1) pb) :
      BadKeyBuf (f + 1 + 1) d
        (TAG_MAP :: lb ++ goodBytes ++ (TAG_STRING :: lbk ++ strEncode klast) ++ pb)

theorem badKeyBuf_decode : ∀ (f d : Nat) (b : List Nat), BadKeyBuf f d b →
    _mcf_decode_one f b d = .error ERR_SCHEMA := by
  intro f d b hp
  induction hp with
  | base f d count j t lb junk goodBytes goodEntries hlb hcount hdep hkeys henc hens hj ht =>
    have hed : ∀ v d b, mcf_encode_value (f + 1) v d = .ok b →
        ∀ rest, ∃ v', _mcf_decode_one (f + 1) (b ++ rest) d = .ok (v', rest) :=
      fun v d b hb rest => encode_decode_round (f + 1) v d b hb (f + 1) (Nat.le_refl _) rest
    rw [show (TAG_MAP :: lb ++ goodBytes ++ t :: junk : List Nat)
        = TAG_MAP :: (lb ++ (goodBytes ++ t :: junk)) from by simp]
    rw [dec_one_map, if_neg (by omega), read_u32be_round _ _ _ hlb, bind_ok_left]
    show (if count > MAX_MAP_ENTRIES then _ else _) = _
    rw [if_neg (by omega)]
    show (decodeMapAux (_mcf_decode_one (f + 1)) count (goodBytes ++ t :: junk) d none
        >>= fun q =>
      match q with
      | (entries, r2) => Except.ok (vmap entries, r2)) = _
    rw [hj]
    rw [decodeMapAux_bad_tag (mcf_encode_value (f + 1)) f hed goodEntries d none goodBytes
        hkeys henc hens j t junk ht, bind_error_left]
  | inList f d count j lb goodBytes pb goodElems hlb hcount hdep henc hj hpois ih =>
    have hed : ∀ v d b, mcf_encode_value (f + 1) v d = .ok b →
        ∀ rest, ∃ v', _mcf_decode_one (f + 1) (b ++ rest) d = .ok (v', rest) :=
      fun v d b hb rest => encode_decode_round (f + 1) v d b hb (f + 1) (Nat.le_refl _) rest
    rw [show (TAG_LIST :: lb ++ goodBytes ++ pb : List Nat)
        = TAG_LIST :: (lb ++ (goodBytes ++ pb)) from by simp]
    rw [dec_one_list, if_neg (by omega), read_u32be_round _ _ _ hlb, bind_ok_left]
    show (if count > MAX_LIST_ENTRIES then _ else _) = _
    rw [if_neg (by omega)]
    show (decodeListAux (_mcf_decode_one (f + 1)) count (goodBytes ++ pb) (d + 1)
        >>= fun q =>
      match q with
      | (arr, r2) => Except.ok (vlist arr, r2)) = _
    rw [hj]
    rw [decodeListAux_partial_err (mcf_encode_value (f + 1)) (f + 1) hed goodElems (d + 1)
        goodBytes henc ERR_SCHEMA pb ih j, bind_error_left]
  | inMapValue f d count j lb lbk goodBytes pb klast goodEntries hlb hcount hdep hkeys
      henc hlbk hkval hens hj hpois ih =>
    have hed : ∀ v d b, mcf_encode_value (f + 1) v d = .ok b →
        ∀ rest, ∃ v', _mcf_decode_one (f + 1) (b ++ rest) d = .ok (v', rest) :=
      fun v d b hb rest => encode_decode_round (f + 1) v d b hb (f + 1) (Nat.le_refl _) rest
    rw [show (TAG_MAP :: lb ++ goodBytes ++ (TAG_STRING :: lbk ++ strEncode klast) ++ pb
          : List Nat)
        = TAG_MAP :: (lb ++ (goodBytes ++ (TAG_STRING :: lbk ++ strEncode klast) ++ pb))
        from by simp]
    rw [dec_one_map, if_neg (by omega), read_u32be_round _ _ _ hlb, bind_ok_left]
    show (if count > MAX_MAP_ENTRIES then _ else _) = _
    rw [if_neg (by omega)]
    show (decodeMapAux (_mcf_decode_one (f + 1)) count
        (goodBytes ++ (TAG_STRING :: lbk ++ strEncode klast) ++ pb) d none >>= fun q =>
      match q with
      | (entries, r2) => Except.ok (vmap entries, r2)) = _
    rw [hj]
    rw [decodeMapAux_partial_err (mcf_encode_value (f + 1)) f hed goodEntries d none
        goodBytes hkeys henc klast lbk hlbk hkval hens ERR_SCHEMA pb ih j, bind_error_left]

/-- **C10.** For every CANON_BYTES input within the size limit and carrying
the valid 5-byte header whose body has some MAP entry key framed with a tag
other than 0x01 STRING — at the root or nested to any depth inside
well-formed LIST elements or MAP entries, as captured by `BadKeyBuf` —
`mid_from_canon_bytes` fails with ERR_SCHEMA. -/
theorem C10_bad_map_key_tag (body : List Nat)
    (hp : BadKeyBuf FUEL 0 body)
    (hlen : (CANON_HDR ++ body).length ≤ MAX_CANON_BYTES) :
    mid_from_canon_bytes (CANON_HDR ++ body) = .error ERR_SCHEMA := by
  rw [mid_from_canon_bytes, if_neg (by omega), if_neg (fun hne => hne rfl)]
  have hdec := badKeyBuf_decode FUEL 0 body hp
  rw [show (CANON_HDR ++ body).drop 5 = body from rfl, hdec, bind_error_left]

theorem C10_bad_map_key_tag_witness :
    BadKeyBuf FUEL 0 [4, 0, 0, 0, 1, 2] ∧
    (CANON_HDR ++ [4, 0, 0, 0, 1, 2]).length ≤ MAX_CANON_BYTES ∧
    mid_from_canon_bytes (CANON_HDR ++ [4, 0, 0, 0, 1, 2]) = .error ERR_SCHEMA := by
  have hp : BadKeyBuf FUEL 0 [4, 0, 0, 0, 1, 2] :=
    BadKeyBuf.base 62 0 1 0 2 [0, 0, 0, 1] [] [] []
      (by decide) (by decide) (by decide)
      (fun kv hm => absurd hm (by simp)) rfl rfl rfl (by decide)
  exact ⟨hp, by decide, C10_bad_map_key_tag _ hp (by decide)⟩

/-! ## BIND projection: subsumption and fail-closed -/

theorem parse_all_cons (p : List Nat) (ps : List (List Nat)) :
    parse_all (p :: ps) =
      _parse_pointer p >>= fun t =>
      parse_all ps >>= fun rest =>
      .ok ((p, t) :: rest) := rfl

theorem match_loop_cons (desc : Value) (ptr : List Nat) (toks : List (List Nat))
    (rest : List (List Nat × List (List Nat))) (st : MatchState) :
    match_loop desc ((ptr, toks) :: rest) st =
      if ptr = [] then match_loop desc rest ⟨true, st.anyUnmatched, st.matched⟩
      else ptr_walk toks desc >>= fun res =>
        if res then
          match_loop desc rest ⟨true, st.anyUnmatched, st.matched ++ [toks]⟩
        else match_loop desc rest ⟨st.anyMatch, true, st.matched⟩ := rfl

theorem bind_project_vmap (es : List (List Nat × Value)) (ptrs : List (List Nat)) :
    bind_project (vmap es) ptrs =
      if ¬ ptrs.Nodup then .error ERR_SCHEMA
      else parse_all ptrs >>= fun parsed =>
        match_loop (vmap es) parsed ⟨false, false, []⟩ >>= fun st =>
        if ¬ st.anyMatch then .ok (vmap [])
        else if st.anyUnmatched then .error ERR_SCHEMA
        else if parsed.any (fun pt => decide (pt.1 = [])) then .ok (vmap es)
        else
          build_projected (vmap es)
              (st.matched.filter (fun t => ! is_subsumed t st.matched)) [] >>= fun proj =>
          .ok (vmap proj) := rfl

theorem walk_prefix : ∀ (a b : List (List Nat)) (v : Value),
    ptr_walk (a ++ b) v = .ok true → ptr_walk a v = .ok true := by
  intro a
  induction a with
  | nil => intro b v _; rfl
  | cons tok a' ih =>
    intro b v h
    cases v with
    | vlist l => exact absurd h (by simp [ptr_walk])
    | vmap es =>
      cases hml : mapLookup tok es with
      | some v' =>
        have h2 : (match mapLookup tok es with
            | some v => ptr_walk (a' ++ b) v
            | none => (.ok false : Except ErrCode Bool)) = .ok true := h
        rw [hml] at h2
        show (match mapLookup tok es with
          | some v => ptr_walk a' v
          | none => (.ok false : Except ErrCode Bool)) = .ok true
        rw [hml]
        exact ih b v' h2
      | none =>
        have h2 : (match mapLookup tok es with
            | some v => ptr_walk (a' ++ b) v
            | none => (.ok false : Except ErrCode Bool)) = .ok true := h
        rw [hml] at h2
        exact absurd h2 (by simp)
    | vstr s => exact absurd h (by simp [ptr_walk])
    | vbytes bs => exact absurd h (by simp [ptr_walk])
    | vbool bb => exact absurd h (by simp [ptr_walk])
    | vint n => exact absurd h (by simp [ptr_walk])

/-- **C6 counterexample.** On the descriptor `{"a": true}` with parent `/a`
and child `/a/b` (the parent a strict prefix of the child, both as pointer
strings and as token paths), `canonical_bytes_bind` with `[parent]` succeeds
while with `[parent, child]` it fails with ERR_SCHEMA: the unmatched child is
not dropped as redundant — the fail-closed check runs before subsumption. -/
theorem C6_counterexample :
    canonical_bytes_bind (vmap [([97], vbool true)]) [[47, 97], [47, 97, 47, 98]]
        ≠ canonical_bytes_bind (vmap [([97], vbool true)]) [[47, 97]] ∧
    List.IsPrefix [47, 97] [47, 97, 47, 98] ∧ ([47, 97] : List Nat) ≠ [47, 97, 47, 98] :=
  ⟨by decide, ⟨[47, 98], rfl⟩, by decide⟩

/-- **C6 (amended).** If the parent pointer's token path is a strict prefix
of the child's token path and the child path itself matches the MAP
descriptor, then the child pointer is redundant: BIND with `[parent, child]`
produces byte-for-byte the same result as with `[parent]` — for a non-empty
parent the subsumption filter drops the child's matched path, and for the
empty parent the empty-pointer rule returns the full descriptor either way. -/
theorem C6_subsumption (es : List (List Nat × Value)) (parent child : List Nat)
    (ptoks ctoks : List (List Nat))
    (hpp : _parse_pointer parent = .ok ptoks)
    (hpc : _parse_pointer child = .ok ctoks)
    (hplen : ptoks.length < ctoks.length)
    (hpre : ctoks.take ptoks.length = ptoks)
    (hwc : ptr_walk ctoks (vmap es) = .ok true) :
    canonical_bytes_bind (vmap es) [parent, child]
      = canonical_bytes_bind (vmap es) [parent] := by
  have hcne : child ≠ [] := by
    intro h
    rw [h] at hpc
    have h2 : (Except.ok [] : Except ErrCode (List (List Nat))) = .ok ctoks := hpc
    injection h2 with h3
    rw [← h3] at hplen
    simp at hplen
  have hneq : parent ≠ child := by
    intro h
    rw [h, hpc] at hpp
    injection hpp with h3
    rw [h3] at hplen
    exact absurd hplen (by omega)
  have hwp : ptr_walk ptoks (vmap es) = .ok true := by
    apply walk_prefix ptoks (ctoks.drop ptoks.length) (vmap es)
    have hsplit : ptoks ++ ctoks.drop ptoks.length = ctoks := by
      have h := List.take_append_drop ptoks.length ctoks
      rw [hpre] at h
      exact h
    rw [hsplit]
    exact hwc
  have hbp : bind_project (vmap es) [parent, child] = bind_project (vmap es) [parent] := by
    rw [bind_project_vmap, bind_project_vmap]
    rw [if_neg (by simp [hneq] : ¬¬ ([parent, child] : List (List Nat)).Nodup)]
    rw [if_neg (by simp : ¬¬ ([parent] : List (List Nat)).Nodup)]
    rw [show parse_all [parent, child] = .ok [(parent, ptoks), (child, ctoks)] from by
      rw [parse_all_cons, hpp, bind_ok_left, parse_all_cons, hpc, bind_ok_left]; rfl]
    rw [show parse_all [parent] = .ok [(parent, ptoks)] from by
      rw [parse_all_cons, hpp, bind_ok_left]; rfl]
    rw [bind_ok_left, bind_ok_left]
    by_cases hpe : parent = []
    · -- empty parent: rule (e) returns the full descriptor on both sides
      rw [show match_loop (vmap es) [(parent, ptoks), (child, ctoks)] ⟨false, false, []⟩
          = .ok ⟨true, false, [ctoks]⟩ from by
        rw [match_loop_cons, if_pos hpe]
        show match_loop (vmap es) [(child, ctoks)] ⟨true, false, []⟩ = _
        rw [match_loop_cons, if_neg hcne, hwc, bind_ok_left]
        rfl]
      rw [show match_loop (vmap es) [(parent, ptoks)] ⟨false, false, []⟩
          = .ok ⟨true, false, []⟩ from by
        rw [match_loop_cons, if_pos hpe]
        rfl]
      rw [bind_ok_left, bind_ok_left]
      show (if List.any [(parent, ptoks), (child, ctoks)] (fun pt => decide (pt.1 = []))
          then _ else _) = (if List.any [(parent, ptoks)] (fun pt => decide (pt.1 = []))
          then _ else _)
      rw [if_pos (by simp [hpe]), if_pos (by simp [hpe])]
    · -- non-empty parent: the subsumption filter drops the child's path
      rw [show match_loop (vmap es) [(parent, ptoks), (child, ctoks)] ⟨false, false, []⟩
          = .ok ⟨true, false, [ptoks, ctoks]⟩ from by
        rw [match_loop_cons, if_neg hpe, hwp, bind_ok_left]
        show match_loop (vmap es) [(child, ctoks)] ⟨true, false, [] ++ [ptoks]⟩ = _
        rw [match_loop_cons, if_neg hcne, hwc, bind_ok_left]
        rfl]
      rw [show match_loop (vmap es) [(parent, ptoks)] ⟨false, false, []⟩
          = .ok ⟨true, false, [ptoks]⟩ from by
        rw [match_loop_cons, if_neg hpe, hwp, bind_ok_left]
        rfl]
      rw [bind_ok_left, bind_ok_left]
      show (if List.any [(parent, ptoks), (child, ctoks)] (fun pt => decide (pt.1 = []))
          then _ else _) = (if List.any [(parent, ptoks)] (fun pt => decide (pt.1 = []))
          then _ else _)
      rw [if_neg (by simp [hpe, hcne]), if_neg (by simp [hpe])]
      have h1 : is_subsumed ptoks [ptoks, ctoks] = false := by
        show (decide (ptoks.length < ptoks.length ∧ ptoks.take ptoks.length = ptoks) ||
          (decide (ctoks.length < ptoks.length ∧ ptoks.take ctoks.length = ctoks) || false))
          = false
        rw [decide_eq_false (fun h => absurd h.1 (by omega)),
          decide_eq_false (fun h => absurd h.1 (by omega))]
        decide
      have h2 : is_subsumed ctoks [ptoks, ctoks] = true := by
        show (decide (ptoks.length < ctoks.length ∧ ctoks.take ptoks.length = ptoks) || _)
          = true
        rw [decide_eq_true ⟨hplen, hpre⟩]
        rfl
      have h3 : is_subsumed ptoks [ptoks] = false := by
        show (decide (ptoks.length < ptoks.length ∧ ptoks.take ptoks.length = ptoks) || false)
          = false
        rw [decide_eq_false (fun h => absurd h.1 (by omega))]
        decide
      rw [show ([ptoks, ctoks].filter (fun t => ! is_subsumed t [ptoks, ctoks])) = [ptoks]
          from by simp [List.filter_cons, h1, h2]]
      rw [show ([ptoks].filter (fun t => ! is_subsumed t [ptoks])) = [ptoks]
          from by simp [List.filter_cons, h3]]
  show (bind_project (vmap es) [parent, child] >>= fun v => canon_bytes_from_value v)
    = (bind_project (vmap es) [parent] >>= fun v => canon_bytes_from_value v)
  rw [hbp]

theorem C6_subsumption_witness :
    _parse_pointer [47, 97] = .ok [[97]] ∧
    _parse_pointer [47, 97, 47, 98] = .ok [[97], [98]] ∧
    ([[97]] : List (List Nat)).length < ([[97], [98]] : List (List Nat)).length ∧
    ([[97], [98]] : List (List Nat)).take 1 = [[97]] ∧
    ptr_walk [[97], [98]] (vmap [([97], vmap [([98], vbool true)])]) = .ok true ∧
    canonical_bytes_bind (vmap [([97], vmap [([98], vbool true)])])
        [[47, 97], [47, 97, 47, 98]]
      = canonical_bytes_bind (vmap [([97], vmap [([98], vbool true)])]) [[47, 97]] :=
  ⟨by decide, by decide, by decide, by decide, by decide,
   C6_subsumption [([97], vmap [([98], vbool true)])] [47, 97] [47, 97, 47, 98]
     [[97]] [[97], [98]] (by decide) (by decide) (by decide) (by decide)
     (by decide)⟩

theorem ptr_walk_err : ∀ (t : List (List Nat)) (v : Value) (e : ErrCode),
    ptr_walk t v = .error e → e = ERR_SCHEMA := by
  intro t
  induction t with
  | nil => intro v e h; exact absurd h (by simp [ptr_walk])
  | cons tok toks ih =>
    intro v e h
    cases v with
    | vlist l =>
      have h2 : (Except.error ERR_SCHEMA : Except ErrCode Bool) = .error e := h
      injection h2 with h3
      exact h3.symm
    | vmap es =>
      have h2 : (match mapLookup tok es with
          | some v => ptr_walk toks v
          | none => (.ok false : Except ErrCode Bool)) = .error e := h
      cases hml : mapLookup tok es with
      | some v' =>
        rw [hml] at h2
        exact ih v' e h2
      | none =>
        rw [hml] at h2
        exact absurd h2 (by simp)
    | vstr s => exact absurd h (by simp [ptr_walk])
    | vbytes bs => exact absurd h (by simp [ptr_walk])
    | vbool bb => exact absurd h (by simp [ptr_walk])
    | vint n => exact absurd h (by simp [ptr_walk])

theorem match_loop_err (desc : Value) :
    ∀ (parsed : List (List Nat × List (List Nat))) (st : MatchState) (e : ErrCode),
      match_loop desc parsed st = .error e → e = ERR_SCHEMA := by
  intro parsed
  induction parsed with
  | nil => intro st e h; exact absurd h (by simp [match_loop])
  | cons pt rest ih =>
    obtain ⟨ptr, toks⟩ := pt
    intro st e h
    rw [match_loop_cons] at h
    by_cases hp : ptr = []
    · rw [if_pos hp] at h
      exact ih _ e h
    · rw [if_neg hp] at h
      cases hw : ptr_walk toks desc with
      | error e' =>
        rw [hw, bind_error_left] at h
        injection h with h2
        rw [← h2]
        exact ptr_walk_err toks desc e' hw
      | ok res =>
        rw [hw, bind_ok_left] at h
        cases res with
        | true => exact ih _ e h
        | false => exact ih _ e h

theorem match_loop_mono (desc : Value) :
    ∀ (parsed : List (List Nat × List (List Nat))) (st st' : MatchState),
      match_loop desc parsed st = .ok st' →
      (st.anyMatch = true → st'.anyMatch = true) ∧
      (st.anyUnmatched = true → st'.anyUnmatched = true) := by
  intro parsed
  induction parsed with
  | nil =>
    intro st st' h
    have h2 : (Except.ok st : Except ErrCode MatchState) = .ok st' := h
    injection h2 with h3
    rw [← h3]
    exact ⟨id, id⟩
  | cons pt rest ih =>
    obtain ⟨ptr, toks⟩ := pt
    intro st st' h
    rw [match_loop_cons] at h
    by_cases hp : ptr = []
    · rw [if_pos hp] at h
      have := ih _ _ h
      exact ⟨fun _ => this.1 rfl, fun hu => this.2 hu⟩
    · rw [if_neg hp] at h
      cases hw : ptr_walk toks desc with
      | error e' => rw [hw, bind_error_left] at h; exact absurd h (by simp)
      | ok res =>
        rw [hw, bind_ok_left] at h
        cases res with
        | true =>
          have := ih _ _ h
          exact ⟨fun _ => this.1 rfl, fun hu => this.2 hu⟩
        | false =>
          have := ih _ _ h
          exact ⟨fun hm => this.1 hm, fun _ => this.2 rfl⟩

theorem match_loop_sets_match (desc : Value) :
    ∀ (parsed : List (List Nat × List (List Nat))) (st st' : MatchState)
      (p : List Nat) (t : List (List Nat)),
      (p, t) ∈ parsed → (p = [] ∨ ptr_walk t desc = .ok true) →
      match_loop desc parsed st = .ok st' → st'.anyMatch = true := by
  intro parsed
  induction parsed with
  | nil => intro st st' p t hm; exact absurd hm (by simp)
  | cons pt rest ih =>
    obtain ⟨ptr, toks⟩ := pt
    intro st st' p t hm hmatch h
    rw [match_loop_cons] at h
    rcases List.mem_cons.mp hm with he | hm'
    · -- (p, t) is the head
      have hpe : ptr = p ∧ toks = t := by
        have h1 := congrArg Prod.fst he.symm
        have h2 := congrArg Prod.snd he.symm
        exact ⟨h1, h2⟩
      rcases hmatch with hp0 | hwt
      · rw [if_pos (hpe.1.trans hp0)] at h
        exact (match_loop_mono desc rest _ _ h).1 rfl
      · by_cases hp : ptr = []
        · rw [if_pos hp] at h
          exact (match_loop_mono desc rest _ _ h).1 rfl
        · rw [if_neg hp, hpe.2, hwt, bind_ok_left] at h
          exact (match_loop_mono desc rest _ _ h).1 rfl
    · -- (p, t) is in the tail: any continuation state reaches the same loop
      by_cases hp : ptr = []
      · rw [if_pos hp] at h
        exact ih _ _ p t hm' hmatch h
      · rw [if_neg hp] at h
        cases hw : ptr_walk toks desc with
        | error e' => rw [hw, bind_error_left] at h; exact absurd h (by simp)
        | ok res =>
          rw [hw, bind_ok_left] at h
          cases res with
          | true => exact ih _ _ p t hm' hmatch h
          | false => exact ih _ _ p t hm' hmatch h

theorem match_loop_sets_unmatched (desc : Value) :
    ∀ (parsed : List (List Nat × List (List Nat))) (st st' : MatchState)
      (q : List Nat) (u : List (List Nat)),
      (q, u) ∈ parsed → q ≠ [] → ptr_walk u desc = .ok false →
      match_loop desc parsed st = .ok st' → st'.anyUnmatched = true := by
  intro parsed
  induction parsed with
  | nil => intro st st' q u hm; exact absurd hm (by simp)
  | cons pt rest ih =>
    obtain ⟨ptr, toks⟩ := pt
    intro st st' q u hm hq hwu h
    rw [match_loop_cons] at h
    rcases List.mem_cons.mp hm with he | hm'
    · have hpe : ptr = q ∧ toks = u := by
        have h1 := congrArg Prod.fst he.symm
        have h2 := congrArg Prod.snd he.symm
        exact ⟨h1, h2⟩
      rw [if_neg (hpe.1 ▸ hq), hpe.2, hwu, bind_ok_left] at h
      exact (match_loop_mono desc rest _ _ h).2 rfl
    · by_cases hp : ptr = []
      · rw [if_pos hp] at h
        exact ih _ _ q u hm' hq hwu h
      · rw [if_neg hp] at h
        cases hw : ptr_walk toks desc with
        | error e' => rw [hw, bind_error_left] at h; exact absurd h (by simp)
        | ok res =>
          rw [hw, bind_ok_left] at h
          cases res with
          | true => exact ih _ _ q u hm' hq hwu h
          | false => exact ih _ _ q u hm' hq hwu h

/-- **C7.** Fail-closed: whenever the parsed pointer set contains one pointer
that matches the MAP descriptor (including the empty pointer, which always
matches the root) and another non-empty pointer whose walk finds no match,
BIND fails with ERR_SCHEMA in all three entry points — the fail-closed rule
(c) fires before the empty-pointer rule (e) is ever consulted. -/
theorem C7_fail_closed (es : List (List Nat × Value)) (ptrs : List (List Nat))
    (parsed : List (List Nat × List (List Nat)))
    (p : List Nat) (t : List (List Nat)) (q : List Nat) (u : List (List Nat))
    (hparse : parse_all ptrs = .ok parsed)
    (hmem1 : (p, t) ∈ parsed) (hm1 : p = [] ∨ ptr_walk t (vmap es) = .ok true)
    (hmem2 : (q, u) ∈ parsed) (hq : q ≠ []) (hm2 : ptr_walk u (vmap es) = .ok false) :
    bind_project (vmap es) ptrs = .error ERR_SCHEMA ∧
    canonical_bytes_bind (vmap es) ptrs = .error ERR_SCHEMA ∧
    mid_bind (vmap es) ptrs = .error ERR_SCHEMA := by
  have hbp : bind_project (vmap es) ptrs = .error ERR_SCHEMA := by
    rw [bind_project_vmap]
    by_cases hnd : ptrs.Nodup
    · rw [if_neg (not_not_intro hnd)]
      rw [hparse, bind_ok_left]
      cases hml : match_loop (vmap es) parsed ⟨false, false, []⟩ with
      | error e =>
        rw [bind_error_left, match_loop_err (vmap es) parsed _ e hml]
      | ok st =>
        rw [bind_ok_left]
        have hM := match_loop_sets_match (vmap es) parsed _ st p t hmem1 hm1 hml
        have hU := match_loop_sets_unmatched (vmap es) parsed _ st q u hmem2 hq hm2 hml
        rw [if_neg (by simp [hM]), if_pos hU]
    · rw [if_pos hnd]
  refine ⟨hbp, ?_, ?_⟩
  · show (bind_project (vmap es) ptrs >>= fun v => canon_bytes_from_value v) = _
    rw [hbp, bind_error_left]
  · show (bind_project (vmap es) ptrs >>= fun v => mid_from_value v) = _
    rw [hbp, bind_error_left]

theorem C7_fail_closed_witness :
    parse_all [[], [47, 97]] = .ok [([], []), ([47, 97], [[97]])] ∧
    ptr_walk [[97]] (vmap []) = .ok false ∧
    bind_project (vmap []) [[], [47, 97]] = .error ERR_SCHEMA ∧
    canonical_bytes_bind (vmap []) [[], [47, 97]] = .error ERR_SCHEMA ∧
    mid_bind (vmap []) [[], [47, 97]] = .error ERR_SCHEMA := by
  have h := C7_fail_closed [] [[], [47, 97]] [([], []), ([47, 97], [[97]])]
    [] [] [47, 97] [[97]] (by decide) (by decide) (Or.inl rfl) (by decide) (by decide)
    (by decide)
  exact ⟨by decide, by decide, h.1, h.2.1, h.2.2⟩
